import Mathlib

/-!
Verification of the `ordcode` order-preserving binary codec.

This file gives a shallow embedding, over `List Nat` byte strings, of the parts
of the crate that the claims concern:

* `src/primitives.rs` — order-preserving codecs for integers, floats, bool, char;
* `src/bytes_esc.rs` — the prefix-free escaped byte-string codec;
* `src/varint.rs` — the length-prefixed varint codec for `u64`/`u32`;
* `src/buf.rs` — the double-ended writer `DeBytesWriter`;
* `src/hint_ser.rs` / `src/ord_ser.rs` — the size calculator and the structured
  serializer.

Bytes are modelled as `Nat` below 256; machine integers as `Nat`/`Int` with
explicit `% 2^w` where Rust wraps or casts.  Fallible operations return
`Except Err`.
-/

namespace Ordcode

set_option maxRecDepth 4096

/-- Rust `Order` from `lib.rs`: serialization order selector.  `Unspecified`
behaves as `Ascending` throughout (`ord_cond!` macro). -/
inductive Order where
  | Ascending
  | Descending
  | Unspecified
deriving DecidableEq, Repr

/-- The `ord_cond!` macro of `primitives.rs`: picks the descending branch for
`Descending`, the ascending branch otherwise. -/
def ordCond {α : Type} (o : Order) (desc asc : α) : α :=
  match o with
  | .Ascending => asc
  | .Descending => desc
  | .Unspecified => asc

/-- Error kinds from `errors.rs` that the modelled operations can produce. -/
inductive Err where
  | PrematureEndOfInput
  | InvalidByteSequenceEscape
  | InvalidUtf8Encoding
  | InvalidVarintEncoding
  | BufferOverflow
deriving DecidableEq, Repr

/-- Three-way comparison on `Nat` (the sign of `memcmp` on single bytes / of
integer comparison). -/
def cmpN (a b : Nat) : Ordering :=
  if a < b then .lt else if a = b then .eq else .gt

/-- Three-way comparison on `Int`. -/
def cmpI (a b : Int) : Ordering :=
  if a < b then .lt else if a = b then .eq else .gt

/-- Byte-wise lexicographic comparison of byte strings, i.e. the sign of
`memcmp` extended to unequal lengths with the Rust `[u8]`/`Vec<u8>` convention
that a strict prefix sorts first. -/
def lexCmp : List Nat → List Nat → Ordering
  | [], [] => .eq
  | [], _ :: _ => .lt
  | _ :: _, [] => .gt
  | a :: as', b :: bs => (cmpN a b).then (lexCmp as' bs)

/-- Reversal of a comparison result for descending order. -/
def ordApply (o : Order) (c : Ordering) : Ordering :=
  ordCond o c.swap c

/-- Big-endian byte string of `v`, exactly `w` bytes (`to_be_bytes` on a
`w`-byte unsigned integer; `v` is reduced modulo `2^(8*w)` by construction). -/
def toBEBytes : Nat → Nat → List Nat
  | 0, _ => []
  | w + 1, v => toBEBytes w (v / 256) ++ [v % 256]

/-- Value of a big-endian byte string (`from_be_bytes`). -/
def fromBEBytes (l : List Nat) : Nat :=
  l.foldl (fun a b => 256 * a + b) 0

/-- Little-endian byte string of `v`, exactly `w` bytes (`to_le_bytes`). -/
def toLEBytes : Nat → Nat → List Nat
  | 0, _ => []
  | w + 1, v => v % 256 :: toLEBytes w (v / 256)

/-- Value of a little-endian byte string (`from_le_bytes`; absent bytes count
as zero padding). -/
def fromLEBytes : List Nat → Nat
  | [] => 0
  | b :: l => b + 256 * fromLEBytes l

/-- Reading `n` bytes from the head of a byte-slice reader
(`ReadBytes::apply_bytes`/`read` backed by `BytesReader`): returns the bytes
and the remaining input, or `PrematureEndOfInput`. -/
def readN (n : Nat) (s : List Nat) : Except Err (List Nat × List Nat) :=
  if n ≤ s.length then .ok (s.take n, s.drop n) else .error .PrematureEndOfInput

/-! ### Generic lemmas about the byte machinery -/

theorem cmpN_self (a : Nat) : cmpN a a = .eq := by simp [cmpN]

theorem cmpN_swap (a b : Nat) : cmpN b a = (cmpN a b).swap := by
  unfold cmpN
  rcases Nat.lt_trichotomy a b with h | h | h
  · simp [h, show ¬ b < a by omega, show ¬ b = a by omega, Ordering.swap]
  · simp [h, Ordering.swap]
  · simp [h, show ¬ a < b by omega, show ¬ a = b by omega, Ordering.swap]

theorem cmpN_eq_iff {a b : Nat} : cmpN a b = .eq ↔ a = b := by
  unfold cmpN
  rcases Nat.lt_trichotomy a b with h | h | h
  · simp [h]; omega
  · simp [h]
  · simp [show ¬ a < b by omega, show ¬ a = b by omega]

theorem cmpN_lt_iff {a b : Nat} : cmpN a b = .lt ↔ a < b := by
  unfold cmpN
  rcases Nat.lt_trichotomy a b with h | h | h
  · simp [h]
  · simp [h]
  · simp [show ¬ a < b by omega, show ¬ a = b by omega]

theorem Ordering_then_of_ne {c d : Ordering} (h : c ≠ .eq) : c.then d = c := by
  cases c <;> simp [Ordering.then] at h ⊢

theorem Ordering_eq_then (d : Ordering) : Ordering.eq.then d = d := rfl

theorem lexCmp_cons (a b : Nat) (l1 l2 : List Nat) :
    lexCmp (a :: l1) (b :: l2) = (cmpN a b).then (lexCmp l1 l2) := rfl

theorem lexCmp_singleton (x y : Nat) : lexCmp [x] [y] = cmpN x y := by
  rw [lexCmp_cons]
  cases cmpN x y <;> rfl

/-- Comparison after prepending a common prefix. -/
theorem lexCmp_append_same (c : List Nat) (l1 l2 : List Nat) :
    lexCmp (c ++ l1) (c ++ l2) = lexCmp l1 l2 := by
  induction c with
  | nil => rfl
  | cons a t ih => simp [lexCmp_cons, ih, cmpN_self, Ordering_eq_then]

/-- Lexicographic comparison splits across equal-length prefixes. -/
theorem lexCmp_append_of_length_eq :
    ∀ (xs ys as' bs : List Nat), xs.length = ys.length →
      lexCmp (xs ++ as') (ys ++ bs) = (lexCmp xs ys).then (lexCmp as' bs) := by
  intro xs
  induction xs with
  | nil =>
    intro ys as' bs h
    cases ys with
    | nil => simp [lexCmp, Ordering_eq_then]
    | cons b t => simp at h
  | cons a t ih =>
    intro ys as' bs h
    cases ys with
    | nil => simp at h
    | cons b u =>
      simp only [List.cons_append, lexCmp_cons]
      rw [ih u as' bs (by simpa using h)]
      cases cmpN a b <;> simp [Ordering.then]

theorem length_toBEBytes (w v : Nat) : (toBEBytes w v).length = w := by
  induction w generalizing v with
  | zero => rfl
  | succ n ih => simp [toBEBytes, ih]

theorem length_toLEBytes (w v : Nat) : (toLEBytes w v).length = w := by
  induction w generalizing v with
  | zero => rfl
  | succ n ih => simp [toLEBytes, ih]

theorem fromBEBytes_append_singleton (l : List Nat) (x : Nat) :
    fromBEBytes (l ++ [x]) = 256 * fromBEBytes l + x := by
  simp [fromBEBytes, List.foldl_append]

theorem fromBEBytes_toBEBytes {w v : Nat} (h : v < 2 ^ (8 * w)) :
    fromBEBytes (toBEBytes w v) = v := by
  induction w generalizing v with
  | zero =>
    interval_cases v
    rfl
  | succ n ih =>
    have hdiv : v / 256 < 2 ^ (8 * n) := by
      have h256 : (256 : Nat) = 2 ^ 8 := by norm_num
      rw [h256, Nat.div_lt_iff_lt_mul (by positivity), ← pow_add]
      have : 8 * n + 8 = 8 * (n + 1) := by ring
      rw [this]; exact h
    simp only [toBEBytes, fromBEBytes_append_singleton, ih hdiv]
    omega

/-- Base-256 digit decomposition of a three-way comparison. -/
theorem cmpN_div_mod (a b : Nat) :
    cmpN a b = (cmpN (a / 256) (b / 256)).then (cmpN (a % 256) (b % 256)) := by
  have ha := Nat.div_add_mod a 256
  have hb := Nat.div_add_mod b 256
  have ha' := Nat.mod_lt a (show 0 < 256 by norm_num)
  have hb' := Nat.mod_lt b (show 0 < 256 by norm_num)
  unfold cmpN
  rcases Nat.lt_trichotomy (a / 256) (b / 256) with h | h | h
  · have h1 : a < b := by omega
    simp [h1, h, Ordering.then]
  · rcases Nat.lt_trichotomy (a % 256) (b % 256) with h2 | h2 | h2
    · have h1 : a < b := by omega
      simp [h1, h, h2, Ordering.then]
    · have h1 : a = b := by omega
      simp [h1, h, h2, Ordering.then]
    · have h1 : ¬ a < b := by omega
      have h3 : ¬ a = b := by omega
      have h4 : ¬ a % 256 < b % 256 := by omega
      have h5 : ¬ a % 256 = b % 256 := by omega
      simp [h1, h3, h4, h5, h, Ordering.then]
  · have h1 : ¬ a < b := by omega
    have h3 : ¬ a = b := by omega
    have h4 : ¬ a / 256 < b / 256 := by omega
    have h5 : ¬ a / 256 = b / 256 := by omega
    simp [h1, h3, h4, h5, Ordering.then]

/-- Byte-wise comparison of equal-width big-endian encodings is numeric
comparison. -/
theorem lexCmp_toBEBytes {w a b : Nat} (ha : a < 2 ^ (8 * w)) (hb : b < 2 ^ (8 * w)) :
    lexCmp (toBEBytes w a) (toBEBytes w b) = cmpN a b := by
  induction w generalizing a b with
  | zero =>
    interval_cases a
    interval_cases b
    simp [toBEBytes, lexCmp, cmpN_self]
  | succ n ih =>
    have hda : a / 256 < 2 ^ (8 * n) := by
      have h256 : (256 : Nat) = 2 ^ 8 := by norm_num
      rw [h256, Nat.div_lt_iff_lt_mul (by positivity), ← pow_add]
      have : 8 * n + 8 = 8 * (n + 1) := by ring
      rw [this]; exact ha
    have hdb : b / 256 < 2 ^ (8 * n) := by
      have h256 : (256 : Nat) = 2 ^ 8 := by norm_num
      rw [h256, Nat.div_lt_iff_lt_mul (by positivity), ← pow_add]
      have : 8 * n + 8 = 8 * (n + 1) := by ring
      rw [this]; exact hb
    simp only [toBEBytes]
    rw [lexCmp_append_of_length_eq _ _ _ _ (by simp [length_toBEBytes]),
      ih hda hdb, lexCmp_singleton, ← cmpN_div_mod]

/-- Complementation reverses three-way comparison. -/
theorem cmpN_sub_sub {M a b : Nat} (ha : a < M) (hb : b < M) :
    cmpN (M - 1 - a) (M - 1 - b) = (cmpN a b).swap := by
  unfold cmpN
  rcases Nat.lt_trichotomy a b with h | h | h
  · simp [h, show ¬ M - 1 - a < M - 1 - b by omega, show ¬ M - 1 - a = M - 1 - b by omega,
      Ordering.swap]
  · simp [h, Ordering.swap]
  · simp [show ¬ a < b by omega, show ¬ a = b by omega,
      show M - 1 - a < M - 1 - b by omega, Ordering.swap]

/-! ### Bit-manipulation lemmas -/

/-- XOR with a power of two above a number sets that bit. -/
theorem xor_two_pow_of_lt {a k : Nat} (h : a < 2 ^ k) : a ^^^ 2 ^ k = a + 2 ^ k := by
  apply Nat.eq_of_testBit_eq
  intro i
  have hco : a + 2 ^ k = 2 ^ k + a := Nat.add_comm _ _
  rcases Nat.lt_trichotomy i k with hik | hik | hik
  · rw [Nat.testBit_xor, Nat.testBit_two_pow_of_ne (by omega), hco,
      Nat.testBit_two_pow_add_gt hik]
    simp
  · subst hik
    rw [Nat.testBit_xor, Nat.testBit_two_pow_self, hco,
      Nat.testBit_two_pow_add_eq, Nat.testBit_lt_two_pow h]
    rfl
  · have h1 : a < 2 ^ i := lt_of_lt_of_le h (Nat.pow_le_pow_right (by norm_num) (by omega))
    have h2 : a + 2 ^ k < 2 ^ i := by
      calc a + 2 ^ k < 2 ^ k + 2 ^ k := by omega
      _ = 2 ^ (k + 1) := by ring
      _ ≤ 2 ^ i := Nat.pow_le_pow_right (by norm_num) (by omega)
    rw [Nat.testBit_xor, Nat.testBit_two_pow_of_ne (by omega),
      Nat.testBit_lt_two_pow h1, Nat.testBit_lt_two_pow h2]
    rfl

/-- XOR with a power of two inside a number clears that bit. -/
theorem xor_two_pow_of_ge {a k : Nat} (h1 : 2 ^ k ≤ a) (h2 : a < 2 ^ (k + 1)) :
    a ^^^ 2 ^ k = a - 2 ^ k := by
  have h3 : a - 2 ^ k < 2 ^ k := by
    have : (2 : Nat) ^ (k + 1) = 2 ^ k + 2 ^ k := by ring
    omega
  have h5 : (a - 2 ^ k) ^^^ 2 ^ k = a := by
    rw [xor_two_pow_of_lt h3]; omega
  calc a ^^^ 2 ^ k = ((a - 2 ^ k) ^^^ 2 ^ k) ^^^ 2 ^ k := by rw [h5]
  _ = (a - 2 ^ k) ^^^ (2 ^ k ^^^ 2 ^ k) := Nat.xor_assoc _ _ _
  _ = a - 2 ^ k := by simp

/-- XOR with an all-ones mask is complementation. -/
theorem xor_two_pow_sub_one {a n : Nat} (h : a < 2 ^ n) :
    a ^^^ (2 ^ n - 1) = 2 ^ n - 1 - a := by
  apply Nat.eq_of_testBit_eq
  intro i
  have hrw : 2 ^ n - 1 - a = 2 ^ n - (a + 1) := by omega
  rw [Nat.testBit_xor, Nat.testBit_two_pow_sub_one, hrw, Nat.testBit_two_pow_sub_succ h]
  by_cases hin : i < n
  · simp [hin]
  · have h1 : a < 2 ^ i := lt_of_lt_of_le h (Nat.pow_le_pow_right (by norm_num) (by omega))
    simp [hin, Nat.testBit_lt_two_pow h1]

/-- OR of an all-ones mask with anything below it is the mask. -/
theorem allones_or {n x : Nat} (h : x < 2 ^ n) : (2 ^ n - 1) ||| x = 2 ^ n - 1 := by
  apply Nat.eq_of_testBit_eq
  intro i
  rw [Nat.testBit_or, Nat.testBit_two_pow_sub_one]
  by_cases hin : i < n
  · simp [hin]
  · have h1 : x < 2 ^ i := lt_of_lt_of_le h (Nat.pow_le_pow_right (by norm_num) (by omega))
    simp [hin, Nat.testBit_lt_two_pow h1]

/-! ### `primitives.rs`: order-preserving scalar codecs

Widths `w` are in bytes; the bit width is `8 * w`.  Bitwise complement `!x` of
a `w`-byte unsigned integer is `2^(8*w) - 1 - x`. -/

/-- Rust `serialize_uN` (macro `serialize_int`, unsigned half): big-endian bytes of
the value, bitwise-complemented for descending order. -/
def serialize_uint (w : Nat) (v : Nat) (o : Order) : List Nat :=
  toBEBytes w (ordCond o (2 ^ (8 * w) - 1 - v) v)

/-- Rust `deserialize_uN`: read `w` bytes, assemble big-endian, complement for
descending order. -/
def deserialize_uint (w : Nat) (o : Order) (s : List Nat) :
    Except Err (Nat × List Nat) :=
  (readN w s).map (fun p =>
    (ordCond o (2 ^ (8 * w) - 1 - fromBEBytes p.1) (fromBEBytes p.1), p.2))

/-- Two's-complement bit pattern of the `w`-byte signed integer `i`
(the cast `i as uN`). -/
def toUnsigned (w : Nat) (i : Int) : Nat := (i % ((2 : Int) ^ (8 * w))).toNat

/-- Signed reinterpretation of a `w`-byte pattern (the cast `u as iN`). -/
def fromUnsigned (w : Nat) (u : Nat) : Int :=
  if u < 2 ^ (8 * w - 1) then (u : Int) else (u : Int) - 2 ^ (8 * w)

/-- Rust `serialize_iN`: `(value ^ iN::min_value()) as uN`, then the unsigned path.
On two's-complement patterns, XOR with `MIN` is XOR with the sign bit
`2^(8*w-1)`. -/
def serialize_int (w : Nat) (i : Int) (o : Order) : List Nat :=
  serialize_uint w (toUnsigned w i ^^^ 2 ^ (8 * w - 1)) o

/-- Rust `deserialize_iN`: unsigned decode `u`, then `(u as iN) ^ iN::min_value()`
(again XOR with the sign bit on patterns, then signed reinterpretation). -/
def deserialize_int (w : Nat) (o : Order) (s : List Nat) :
    Except Err (Int × List Nat) :=
  (deserialize_uint w o s).map (fun p =>
    (fromUnsigned w (p.1 ^^^ 2 ^ (8 * w - 1)), p.2))

/-- Rust `serialize_bool`: `1` for true, `0` for false, through `serialize_u8`. -/
def serialize_bool (b : Bool) (o : Order) : List Nat :=
  serialize_uint 1 (if b then 1 else 0) o

/-- Rust `deserialize_bool`: `deserialize_u8(reader, order).map(|v| v != 0)`. -/
def deserialize_bool (o : Order) (s : List Nat) : Except Err (Bool × List Nat) :=
  (deserialize_uint 1 o s).map (fun p => (decide (p.1 ≠ 0), p.2))

/-- Rust `serialize_char`: the `u32` code point through `serialize_u32`. -/
def serialize_char (c : Nat) (o : Order) : List Nat := serialize_uint 4 c o

/-- Code points accepted by `char::from_u32`: Unicode scalar values
(no surrogates, at most `0x10FFFF`). -/
def validCharNat (c : Nat) : Prop := c < 0xD800 ∨ (0xDFFF < c ∧ c < 0x110000)

instance (c : Nat) : Decidable (validCharNat c) := by
  unfold validCharNat; infer_instance

/-- Rust `deserialize_char`: `u32` decode, then `char::from_u32` which rejects
non-scalar values with `InvalidUtf8Encoding`. -/
def deserialize_char (o : Order) (s : List Nat) : Except Err (Nat × List Nat) :=
  match deserialize_uint 4 o s with
  | .error e => .error e
  | .ok p => if validCharNat p.1 then .ok p else .error .InvalidUtf8Encoding

/-- Bit pattern of the arithmetic right shift `t >> (n-1)` of an `n`-bit
signed integer with pattern `p`: all-zero when the sign bit is clear, all-one
when it is set. -/
def arithShiftMSB (n : Nat) (p : Nat) : Nat :=
  if p < 2 ^ (n - 1) then 0 else 2 ^ n - 1

/-- Rust `serialize_fN` (macro `serialize_float`): with `t` the IEEE-754 bit
pattern reinterpreted as a signed integer, emit
`ov = t ^ ((t >> (8*w-1)) | iN::MIN)` through the unsigned big-endian path,
complemented for descending order. -/
def serialize_float (w : Nat) (p : Nat) (o : Order) : List Nat :=
  let ov := p ^^^ (arithShiftMSB (8 * w) p ||| 2 ^ (8 * w - 1))
  toBEBytes w (ordCond o (2 ^ (8 * w) - 1 - ov) ov)

/-- Rust `deserialize_fN`: unsigned decode `val`, then
`t = ((val ^ MIN) >> (8*w-1)) | MIN`, result pattern `val ^ t`. -/
def deserialize_float (w : Nat) (o : Order) (s : List Nat) :
    Except Err (Nat × List Nat) :=
  (deserialize_uint w o s).map (fun p =>
    (p.1 ^^^ (arithShiftMSB (8 * w) (p.1 ^^^ 2 ^ (8 * w - 1)) ||| 2 ^ (8 * w - 1)), p.2))

/-! ### The primitive scalar set as one type -/

/-- A value of one of the primitive scalar types: unsigned integer of `w`
bytes, signed integer of `w` bytes, IEEE-754 float given by its bit pattern
(`w` bytes, `mb` mantissa bits), bool, or char code point. -/
inductive Scalar where
  | uint (w : Nat) (v : Nat)
  | sint (w : Nat) (v : Int)
  | float (w : Nat) (mb : Nat) (p : Nat)
  | boolean (b : Bool)
  | char (c : Nat)
deriving DecidableEq, Repr

/-- Well-formedness: values lie in the range of their type; floats are `f32`
or `f64`; chars are Unicode scalar values. -/
def Scalar.valid : Scalar → Prop
  | .uint w v => 1 ≤ w ∧ v < 2 ^ (8 * w)
  | .sint w v => 1 ≤ w ∧ -(2 ^ (8 * w - 1) : Int) ≤ v ∧ v < 2 ^ (8 * w - 1)
  | .float w mb p => ((w = 4 ∧ mb = 23) ∨ (w = 8 ∧ mb = 52)) ∧ p < 2 ^ (8 * w)
  | .boolean _ => True
  | .char c => validCharNat c

/-- Two scalars of the same primitive type. -/
def Scalar.sameType : Scalar → Scalar → Prop
  | .uint w _, .uint w' _ => w = w'
  | .sint w _, .sint w' _ => w = w'
  | .float w mb _, .float w' mb' _ => w = w' ∧ mb = mb'
  | .boolean _, .boolean _ => True
  | .char _, .char _ => True
  | _, _ => False

/-- Magnitude field (everything but the sign bit) of an `n`-bit float
pattern. -/
def mag (n p : Nat) : Nat := p % 2 ^ (n - 1)

/-- Sign bit of an `n`-bit float pattern. -/
def sgn (n p : Nat) : Nat := p / 2 ^ (n - 1)

/-- NaN patterns of a float with `n` bits and `mb` mantissa bits: exponent
all-ones and non-zero mantissa, i.e. magnitude strictly above that of
infinity (`2^(n-1) - 2^mb`). -/
def isNaNBits (n mb p : Nat) : Prop := 2 ^ (n - 1) - 2 ^ mb < mag n p

instance (n mb p : Nat) : Decidable (isNaNBits n mb p) := by
  unfold isNaNBits; infer_instance

/-- IEEE-754 comparison of two non-NaN `n`-bit float patterns: with equal
signs the magnitude fields compare directly (reversed for negatives); a
negative sorts below a non-negative, except that `-0.0 == +0.0`. -/
def floatCmpNonNaN (n p q : Nat) : Ordering :=
  if sgn n p = 0 then
    if sgn n q = 0 then cmpN (mag n p) (mag n q)
    else if mag n p = 0 ∧ mag n q = 0 then .eq else .gt
  else
    if sgn n q = 0 then (if mag n p = 0 ∧ mag n q = 0 then .eq else .lt)
    else (cmpN (mag n p) (mag n q)).swap

/-- Rust `compare(a, b)` on scalar values; `none` when the values are incomparable
(different types, or a NaN float operand). -/
def Scalar.cmp : Scalar → Scalar → Option Ordering
  | .uint w v, .uint w' v' => if w = w' then some (cmpN v v') else none
  | .sint w v, .sint w' v' => if w = w' then some (cmpI v v') else none
  | .float w mb p, .float w' mb' q =>
    if w = w' ∧ mb = mb' then
      (if isNaNBits (8 * w) mb p ∨ isNaNBits (8 * w) mb q then none
       else some (floatCmpNonNaN (8 * w) p q))
    else none
  | .boolean a, .boolean b =>
    some (cmpN (if a then 1 else 0) (if b then 1 else 0))
  | .char c, .char c' => some (cmpN c c')
  | _, _ => none

/-- Rust `encode(value, order)` over the primitive set, dispatching to the
`primitives.rs` serializer of the value's type. -/
def Scalar.encode : Scalar → Order → List Nat
  | .uint w v, o => serialize_uint w v o
  | .sint w v, o => serialize_int w v o
  | .float w _ p, o => serialize_float w p o
  | .boolean b, o => serialize_bool b o
  | .char c, o => serialize_char c o

/-- The exceptional float pairs: two zero patterns of opposite signs
(`-0.0` vs `+0.0`), which IEEE compares equal but whose encodings differ. -/
def Scalar.bothZeroDistinct : Scalar → Scalar → Prop
  | .float w _ p, .float _ _ q => mag (8 * w) p = 0 ∧ mag (8 * w) q = 0 ∧ p ≠ q
  | _, _ => False

/-! ### Ordering and round-trip lemmas for the primitive codecs -/

theorem serialize_uint_length (w v : Nat) (o : Order) :
    (serialize_uint w v o).length = w := by
  unfold serialize_uint; cases o <;> simp [ordCond, length_toBEBytes]

theorem serialize_int_length (w : Nat) (i : Int) (o : Order) :
    (serialize_int w i o).length = w := serialize_uint_length _ _ _

theorem serialize_float_length (w p : Nat) (o : Order) :
    (serialize_float w p o).length = w := by
  unfold serialize_float; cases o <;> simp [ordCond, length_toBEBytes]

theorem lexCmp_serialize_uint {w a b : Nat} (o : Order)
    (ha : a < 2 ^ (8 * w)) (hb : b < 2 ^ (8 * w)) :
    lexCmp (serialize_uint w a o) (serialize_uint w b o) = ordApply o (cmpN a b) := by
  cases o <;> simp only [serialize_uint, ordCond, ordApply]
  · exact lexCmp_toBEBytes ha hb
  · rw [lexCmp_toBEBytes (by omega) (by omega)]
    exact cmpN_sub_sub ha hb
  · exact lexCmp_toBEBytes ha hb

/-- Rust `deserialize_uint` inverts `serialize_uint` and consumes exactly `w`
bytes. -/
theorem deserialize_serialize_uint {w v : Nat} (o : Order) (hv : v < 2 ^ (8 * w))
    (rest : List Nat) :
    deserialize_uint w o (serialize_uint w v o ++ rest) = .ok (v, rest) := by
  have hlen : (serialize_uint w v o).length = w := serialize_uint_length w v o
  unfold deserialize_uint readN
  rw [if_pos (by simp [hlen])]
  have htake : (serialize_uint w v o ++ rest).take w = serialize_uint w v o :=
    List.take_left' hlen
  have hdrop' : (serialize_uint w v o ++ rest).drop w = rest :=
    List.drop_left' hlen
  simp only [Except.map, htake, hdrop']
  unfold serialize_uint
  cases o <;> simp only [ordCond]
  · rw [fromBEBytes_toBEBytes hv]
  · rw [fromBEBytes_toBEBytes (by omega)]
    congr 2
    omega
  · rw [fromBEBytes_toBEBytes hv]

/-! Signed integers.  On the value range of an `iN`, the pattern-level
`XOR MIN` transform is the order-preserving shift `i ↦ i + 2^(8w-1)`. -/

theorem toUnsigned_of_nonneg {w : Nat} {i : Int} (h0 : 0 ≤ i)
    (h2 : i < (2 : Int) ^ (8 * w)) : toUnsigned w i = i.toNat := by
  unfold toUnsigned
  rw [Int.emod_eq_of_lt h0 h2]

theorem toUnsigned_of_neg {w : Nat} {i : Int} (h0 : i < 0)
    (h1 : -((2 : Int) ^ (8 * w)) ≤ i) : toUnsigned w i = (i + 2 ^ (8 * w)).toNat := by
  unfold toUnsigned
  have key : i % ((2 : Int) ^ (8 * w)) = (i + 2 ^ (8 * w)) % 2 ^ (8 * w) := by
    conv_rhs => rw [show i + (2 : Int) ^ (8 * w) = i + 2 ^ (8 * w) * 1 by ring,
      Int.add_mul_emod_self_left]
  rw [key, Int.emod_eq_of_lt (by omega) (by omega)]

theorem two_pow_split {w : Nat} (hw : 1 ≤ w) :
    (2 : Nat) ^ (8 * w) = 2 ^ (8 * w - 1) + 2 ^ (8 * w - 1) := by
  have h : 8 * w - 1 + 1 = 8 * w := by omega
  calc (2 : Nat) ^ (8 * w) = 2 ^ (8 * w - 1 + 1) := by rw [h]
  _ = 2 ^ (8 * w - 1) + 2 ^ (8 * w - 1) := by ring

theorem two_pow_split_int {w : Nat} (hw : 1 ≤ w) :
    ((2 : Int) ^ (8 * w)) = 2 ^ (8 * w - 1) + 2 ^ (8 * w - 1) := by
  have h : 8 * w - 1 + 1 = 8 * w := by omega
  calc (2 : Int) ^ (8 * w) = 2 ^ (8 * w - 1 + 1) := by rw [h]
  _ = 2 ^ (8 * w - 1) + 2 ^ (8 * w - 1) := by ring

theorem cast_two_pow (k : Nat) : (((2 : Nat) ^ k : Nat) : Int) = (2 : Int) ^ k := by
  push_cast; ring

/-- The signed-to-pattern transform of `serialize_int`, evaluated. -/
theorem toUnsigned_xor_min {w : Nat} (hw : 1 ≤ w) {i : Int}
    (h1 : -((2 : Int) ^ (8 * w - 1)) ≤ i) (h2 : i < (2 : Int) ^ (8 * w - 1)) :
    toUnsigned w i ^^^ 2 ^ (8 * w - 1) = (i + 2 ^ (8 * w - 1)).toNat := by
  have hsplit := two_pow_split_int hw
  rcases le_or_lt 0 i with h0 | h0
  · have hlt : i < (2 : Int) ^ (8 * w) := by omega
    rw [toUnsigned_of_nonneg h0 hlt]
    have hlt2 : i.toNat < 2 ^ (8 * w - 1) := by
      have := cast_two_pow (8 * w - 1); omega
    rw [xor_two_pow_of_lt hlt2]
    have := cast_two_pow (8 * w - 1); omega
  · rw [toUnsigned_of_neg h0 (by omega)]
    have hge : 2 ^ (8 * w - 1) ≤ (i + 2 ^ (8 * w)).toNat := by
      have := cast_two_pow (8 * w - 1); omega
    have hlt : (i + 2 ^ (8 * w)).toNat < 2 ^ (8 * w - 1 + 1) := by
      have h3 := cast_two_pow (8 * w - 1)
      have h4 : 8 * w - 1 + 1 = 8 * w := by omega
      rw [h4]
      have := cast_two_pow (8 * w); omega
    rw [xor_two_pow_of_ge hge hlt]
    have h3 := cast_two_pow (8 * w - 1)
    have h5 := cast_two_pow (8 * w)
    omega

theorem lexCmp_serialize_int {w : Nat} (hw : 1 ≤ w) {i j : Int} (o : Order)
    (hi1 : -((2 : Int) ^ (8 * w - 1)) ≤ i) (hi2 : i < (2 : Int) ^ (8 * w - 1))
    (hj1 : -((2 : Int) ^ (8 * w - 1)) ≤ j) (hj2 : j < (2 : Int) ^ (8 * w - 1)) :
    lexCmp (serialize_int w i o) (serialize_int w j o) = ordApply o (cmpI i j) := by
  unfold serialize_int
  rw [toUnsigned_xor_min hw hi1 hi2, toUnsigned_xor_min hw hj1 hj2]
  have hsplit := two_pow_split hw
  have h3 := cast_two_pow (8 * w - 1)
  have h5 := cast_two_pow (8 * w)
  have hsp := two_pow_split_int hw
  have hbound : ∀ x : Int, -((2 : Int) ^ (8 * w - 1)) ≤ x → x < (2 : Int) ^ (8 * w - 1) →
      (x + 2 ^ (8 * w - 1)).toNat < 2 ^ (8 * w) := by
    intro x hx1 hx2; omega
  rw [lexCmp_serialize_uint o (hbound i hi1 hi2) (hbound j hj1 hj2)]
  clear hsplit
  congr 1
  unfold cmpN cmpI
  rcases lt_trichotomy i j with h | h | h
  · simp [h, show (i + 2 ^ (8 * w - 1)).toNat < (j + 2 ^ (8 * w - 1)).toNat by omega]
  · simp [h]
  · simp [show ¬ i < j by omega, show ¬ i = j by omega,
      show ¬ (i + 2 ^ (8 * w - 1)).toNat < (j + 2 ^ (8 * w - 1)).toNat by omega,
      show ¬ (i + 2 ^ (8 * w - 1)).toNat = (j + 2 ^ (8 * w - 1)).toNat by omega]

theorem fromUnsigned_toUnsigned {w : Nat} (hw : 1 ≤ w) {i : Int}
    (h1 : -((2 : Int) ^ (8 * w - 1)) ≤ i) (h2 : i < (2 : Int) ^ (8 * w - 1)) :
    fromUnsigned w (toUnsigned w i) = i := by
  have hsplit := two_pow_split_int hw
  have h3 := cast_two_pow (8 * w - 1)
  have h5 := cast_two_pow (8 * w)
  rcases le_or_lt 0 i with h0 | h0
  · rw [toUnsigned_of_nonneg h0 (by omega)]
    unfold fromUnsigned
    rw [if_pos (by omega)]
    omega
  · rw [toUnsigned_of_neg h0 (by omega)]
    unfold fromUnsigned
    rw [if_neg (by omega)]
    omega

/-- Rust `serialize_int` feeds a valid `w`-byte pattern to the unsigned path. -/
theorem serialize_int_pattern_lt {w : Nat} (hw : 1 ≤ w) {i : Int}
    (h1 : -((2 : Int) ^ (8 * w - 1)) ≤ i) (h2 : i < (2 : Int) ^ (8 * w - 1)) :
    toUnsigned w i ^^^ 2 ^ (8 * w - 1) < 2 ^ (8 * w) := by
  rw [toUnsigned_xor_min hw h1 h2]
  have hsplit := two_pow_split hw
  have h3 := cast_two_pow (8 * w - 1)
  omega

theorem deserialize_serialize_int {w : Nat} (hw : 1 ≤ w) {i : Int} (o : Order)
    (h1 : -((2 : Int) ^ (8 * w - 1)) ≤ i) (h2 : i < (2 : Int) ^ (8 * w - 1))
    (rest : List Nat) :
    deserialize_int w o (serialize_int w i o ++ rest) = .ok (i, rest) := by
  unfold deserialize_int serialize_int
  rw [deserialize_serialize_uint o (serialize_int_pattern_lt hw h1 h2)]
  simp only [Except.map]
  rw [Nat.xor_assoc, Nat.xor_self, Nat.xor_zero, fromUnsigned_toUnsigned hw h1 h2]

/-! Floats. -/

/-- The float mask `(t >> (n-1)) | MIN` evaluates to the sign bit alone for
non-negative patterns and to all-ones for negative ones. -/
theorem floatMask_eq {n p : Nat} (hn : 1 ≤ n) :
    arithShiftMSB n p ||| 2 ^ (n - 1) =
      if p < 2 ^ (n - 1) then 2 ^ (n - 1) else 2 ^ n - 1 := by
  unfold arithShiftMSB
  by_cases h : p < 2 ^ (n - 1)
  · simp [h]
  · rw [if_neg h, if_neg h]
    exact allones_or (by
      have h4 : n - 1 + 1 = n := by omega
      calc (2 : Nat) ^ (n - 1) < 2 ^ (n - 1 + 1) :=
        Nat.pow_lt_pow_right (by norm_num) (by omega)
      _ = 2 ^ n := by rw [h4])

/-- Value of the float sign-fold: positives shift up by the sign bit,
negatives are complemented. -/
theorem float_ov_eq {n p : Nat} (hn : 1 ≤ n) (hp : p < 2 ^ n) :
    p ^^^ (arithShiftMSB n p ||| 2 ^ (n - 1)) =
      if p < 2 ^ (n - 1) then p + 2 ^ (n - 1) else 2 ^ n - 1 - p := by
  rw [floatMask_eq hn]
  by_cases h : p < 2 ^ (n - 1)
  · rw [if_pos h, if_pos h, xor_two_pow_of_lt h]
  · rw [if_neg h, if_neg h, xor_two_pow_sub_one hp]

theorem cmpN_add_right (a b k : Nat) : cmpN (a + k) (b + k) = cmpN a b := by
  unfold cmpN
  rcases Nat.lt_trichotomy a b with h | h | h
  · simp [h, show a + k < b + k by omega]
  · simp [h]
  · simp [show ¬ a < b by omega, show ¬ a = b by omega,
      show ¬ a + k < b + k by omega, show ¬ a + k = b + k by omega]

theorem cmpN_sub_right {a b k : Nat} (ha : k ≤ a) (hb : k ≤ b) :
    cmpN (a - k) (b - k) = cmpN a b := by
  unfold cmpN
  rcases Nat.lt_trichotomy a b with h | h | h
  · simp [h, show a - k < b - k by omega]
  · simp [h]
  · simp [show ¬ a < b by omega, show ¬ a = b by omega,
      show ¬ a - k < b - k by omega, show ¬ a - k = b - k by omega]

theorem cmpN_gt_of_lt {a b : Nat} (h : b < a) : cmpN a b = .gt := by
  unfold cmpN
  simp [show ¬ a < b by omega, show ¬ a = b by omega]

theorem two_pow_split_bits {n : Nat} (hn : 1 ≤ n) :
    (2 : Nat) ^ n = 2 ^ (n - 1) + 2 ^ (n - 1) := by
  have h : n - 1 + 1 = n := by omega
  calc (2 : Nat) ^ n = 2 ^ (n - 1 + 1) := by rw [h]
  _ = 2 ^ (n - 1) + 2 ^ (n - 1) := by ring

theorem sgn_mag_low {n p : Nat} (h : p < 2 ^ (n - 1)) :
    sgn n p = 0 ∧ mag n p = p :=
  ⟨Nat.div_eq_of_lt h, Nat.mod_eq_of_lt h⟩

theorem sgn_mag_high {n p : Nat} (hn : 1 ≤ n) (h1 : 2 ^ (n - 1) ≤ p)
    (h2 : p < 2 ^ n) : sgn n p = 1 ∧ mag n p = p - 2 ^ (n - 1) := by
  have hsplit := two_pow_split_bits hn
  have hdec : p = (p - 2 ^ (n - 1)) + 2 ^ (n - 1) := by omega
  constructor
  · unfold sgn
    rw [hdec, Nat.add_div_right _ (Nat.pos_pow_of_pos _ (by norm_num)),
      Nat.div_eq_of_lt (by omega)]
  · unfold mag
    rw [hdec, Nat.add_mod_right, Nat.mod_eq_of_lt (by omega)]
    omega

/-- Rust `serialize_float` is the unsigned path applied to the sign-folded
pattern. -/
theorem serialize_float_eq (w p : Nat) (o : Order) :
    serialize_float w p o =
      serialize_uint w (p ^^^ (arithShiftMSB (8 * w) p ||| 2 ^ (8 * w - 1))) o := rfl

theorem float_ov_lt {w p : Nat} (hw : 1 ≤ w) (hp : p < 2 ^ (8 * w)) :
    p ^^^ (arithShiftMSB (8 * w) p ||| 2 ^ (8 * w - 1)) < 2 ^ (8 * w) := by
  have hn : 1 ≤ 8 * w := by omega
  rw [float_ov_eq hn hp]
  have hsplit := two_pow_split_bits hn
  by_cases h : p < 2 ^ (8 * w - 1)
  · rw [if_pos h]; omega
  · rw [if_neg h]; omega

/-- Byte order of float encodings agrees with IEEE comparison except on the
`(-0.0, +0.0)` pairs. -/
theorem lexCmp_serialize_float {w : Nat} (hw : 1 ≤ w) {p q : Nat} (o : Order)
    (hp : p < 2 ^ (8 * w)) (hq : q < 2 ^ (8 * w))
    (hz : ¬ (mag (8 * w) p = 0 ∧ mag (8 * w) q = 0 ∧ p ≠ q)) :
    lexCmp (serialize_float w p o) (serialize_float w q o) =
      ordApply o (floatCmpNonNaN (8 * w) p q) := by
  have hn : 1 ≤ 8 * w := by omega
  have hsplit := two_pow_split_bits hn
  rw [serialize_float_eq, serialize_float_eq,
    lexCmp_serialize_uint o (float_ov_lt hw hp) (float_ov_lt hw hq)]
  rw [float_ov_eq hn hp, float_ov_eq hn hq]
  congr 1
  unfold floatCmpNonNaN
  by_cases hp1 : p < 2 ^ (8 * w - 1) <;> by_cases hq1 : q < 2 ^ (8 * w - 1)
  · obtain ⟨hps, hpm⟩ := sgn_mag_low hp1
    obtain ⟨hqs, hqm⟩ := sgn_mag_low hq1
    simp only [if_pos hp1, if_pos hq1, hps, hqs, hpm, hqm, if_pos rfl]
    exact cmpN_add_right p q _
  · obtain ⟨hps, hpm⟩ := sgn_mag_low hp1
    obtain ⟨hqs, hqm⟩ := sgn_mag_high hn (by omega) hq
    have hzz : ¬ (mag (8 * w) p = 0 ∧ mag (8 * w) q = 0) := by
      intro hc
      exact hz ⟨hc.1, hc.2, by omega⟩
    simp only [if_pos hp1, if_neg hq1, hps, hqs, if_pos rfl, one_ne_zero, if_neg,
      if_neg hzz]
    exact cmpN_gt_of_lt (by omega)
  · obtain ⟨hps, hpm⟩ := sgn_mag_high hn (by omega) hp
    obtain ⟨hqs, hqm⟩ := sgn_mag_low hq1
    have hzz : ¬ (mag (8 * w) p = 0 ∧ mag (8 * w) q = 0) := by
      intro hc
      exact hz ⟨hc.1, hc.2, by omega⟩
    simp only [if_neg hp1, if_pos hq1, hps, hqs, one_ne_zero, if_neg, if_pos rfl,
      if_neg hzz]
    rw [cmpN_lt_iff.2 (by omega)]
    rfl
  · obtain ⟨hps, hpm⟩ := sgn_mag_high hn (by omega) hp
    obtain ⟨hqs, hqm⟩ := sgn_mag_high hn (by omega) hq
    rw [if_neg hp1, if_neg hq1, if_neg (show ¬ sgn (8 * w) p = 0 by omega),
      if_neg (show ¬ sgn (8 * w) q = 0 by omega), hpm, hqm,
      cmpN_sub_right (show 2 ^ (8*w-1) ≤ p by omega) (show 2 ^ (8*w-1) ≤ q by omega)]
    exact cmpN_sub_sub hp hq

/-- Float decode inverts float encode bit-exactly. -/
theorem deserialize_serialize_float {w : Nat} (hw : 1 ≤ w) {p : Nat} (o : Order)
    (hp : p < 2 ^ (8 * w)) (rest : List Nat) :
    deserialize_float w o (serialize_float w p o ++ rest) = .ok (p, rest) := by
  have hn : 1 ≤ 8 * w := by omega
  have hsplit := two_pow_split_bits hn
  unfold deserialize_float
  rw [serialize_float_eq, deserialize_serialize_uint o (float_ov_lt hw hp)]
  simp only [Except.map]
  congr 2
  rw [float_ov_eq hn hp]
  by_cases h : p < 2 ^ (8 * w - 1)
  · rw [if_pos h]
    have h1 : (p + 2 ^ (8 * w - 1)) ^^^ 2 ^ (8 * w - 1) = p := by
      rw [xor_two_pow_of_ge (by omega) (by
        have he : 8 * w - 1 + 1 = 8 * w := by omega
        rw [he]; omega)]
      omega
    rw [h1]
    unfold arithShiftMSB
    rw [if_pos h, Nat.zero_or]
    exact h1
  · rw [if_neg h]
    have hov : 2 ^ (8 * w) - 1 - p < 2 ^ (8 * w - 1) := by omega
    have h1 : (2 ^ (8 * w) - 1 - p) ^^^ 2 ^ (8 * w - 1) =
        2 ^ (8 * w) - 1 - p + 2 ^ (8 * w - 1) := xor_two_pow_of_lt hov
    rw [h1]
    unfold arithShiftMSB
    rw [if_neg (by omega)]
    rw [allones_or (show (2:Nat) ^ (8 * w - 1) < 2 ^ (8*w) by omega)]
    rw [xor_two_pow_sub_one (by omega)]
    omega

theorem deserialize_serialize_bool (b : Bool) (o : Order) (rest : List Nat) :
    deserialize_bool o (serialize_bool b o ++ rest) = .ok (b, rest) := by
  unfold deserialize_bool serialize_bool
  rw [deserialize_serialize_uint o (by cases b <;> norm_num)]
  cases b <;> rfl

theorem deserialize_serialize_char {c : Nat} (o : Order) (hc : validCharNat c)
    (rest : List Nat) :
    deserialize_char o (serialize_char c o ++ rest) = .ok (c, rest) := by
  have hlt : c < 2 ^ (8 * 4) := by
    unfold validCharNat at hc; norm_num at hc ⊢; omega
  unfold deserialize_char serialize_char
  rw [deserialize_serialize_uint o hlt]
  simp [hc]

/-- Schema-directed decode: read one value of the primitive type of `a` from
the input, with the `primitives.rs` deserializer of that type. -/
def Scalar.decodeSame (a : Scalar) (o : Order) (s : List Nat) :
    Except Err (Scalar × List Nat) :=
  match a with
  | .uint w _ => (deserialize_uint w o s).map (fun p => (.uint w p.1, p.2))
  | .sint w _ => (deserialize_int w o s).map (fun p => (.sint w p.1, p.2))
  | .float w mb _ => (deserialize_float w o s).map (fun p => (.float w mb p.1, p.2))
  | .boolean _ => (deserialize_bool o s).map (fun p => (.boolean p.1, p.2))
  | .char _ => (deserialize_char o s).map (fun p => (.char p.1, p.2))

/-! ### Claims C1, C2, C6, C10 -/

/-- Claim C1 as stated is false on floats: `-0.0` and `+0.0` (f32 patterns
`0x80000000` and `0`) compare equal under IEEE-754 `compare`, yet their
ascending encodings are distinct and strictly ordered, so the sign of the
byte comparison (`lt`) differs from the sign of `compare` (`eq`). -/
theorem scalar_order_counterexample :
    (Scalar.float 4 23 0x80000000).valid ∧ (Scalar.float 4 23 0).valid ∧
    Scalar.cmp (.float 4 23 0x80000000) (.float 4 23 0) = some .eq ∧
    lexCmp ((Scalar.float 4 23 0x80000000).encode .Ascending)
        ((Scalar.float 4 23 0).encode .Ascending) = .lt := by
  refine ⟨⟨Or.inl ⟨rfl, rfl⟩, by norm_num⟩, ⟨Or.inl ⟨rfl, rfl⟩, by norm_num⟩, ?_, ?_⟩
  · decide
  · decide

/-- Claim **C1 (amended).** For any two valid same-type scalar values and any order,
the encodings have equal length, and whenever `compare(a, b)` is defined the
sign of the byte-wise lexicographic comparison of the encodings equals the
sign of `compare(a, b)` (reversed for `Descending`) — except on float pairs of
two distinct zero patterns (`-0.0` vs `+0.0`), which compare equal but encode
to strictly ordered byte strings. -/
theorem scalar_encode_order (a b : Scalar) (o : Order)
    (ha : a.valid) (hb : b.valid) (hst : a.sameType b) :
    (a.encode o).length = (b.encode o).length ∧
    (∀ c, a.cmp b = some c → ¬ a.bothZeroDistinct b →
      lexCmp (a.encode o) (b.encode o) = ordApply o c) := by
  cases a <;> cases b <;> (try exact hst.elim)
  case uint.uint w v w' v' =>
    obtain rfl : w = w' := hst
    obtain ⟨hw, hv⟩ := ha
    obtain ⟨-, hv'⟩ := hb
    refine ⟨by simp [Scalar.encode, serialize_uint_length], ?_⟩
    intro c hc _
    simp only [Scalar.cmp, eq_self_iff_true, if_true, Option.some_inj] at hc
    subst hc
    exact lexCmp_serialize_uint o hv hv'
  case sint.sint w v w' v' =>
    obtain rfl : w = w' := hst
    obtain ⟨hw, hv1, hv2⟩ := ha
    obtain ⟨-, hv1', hv2'⟩ := hb
    refine ⟨by simp [Scalar.encode, serialize_int_length], ?_⟩
    intro c hc _
    simp only [Scalar.cmp, eq_self_iff_true, if_true, Option.some_inj] at hc
    subst hc
    exact lexCmp_serialize_int hw o hv1 hv2 hv1' hv2'
  case float.float w mb p w' mb' q =>
    obtain ⟨rfl, rfl⟩ : w = w' ∧ mb = mb' := hst
    obtain ⟨hwmb, hp⟩ := ha
    obtain ⟨-, hq⟩ := hb
    have hw : 1 ≤ w := by rcases hwmb with ⟨rfl, -⟩ | ⟨rfl, -⟩ <;> norm_num
    refine ⟨by simp [Scalar.encode, serialize_float_length], ?_⟩
    intro c hc hz
    simp only [Scalar.cmp, eq_self_iff_true, and_self, if_true] at hc
    by_cases hnan : isNaNBits (8 * w) mb p ∨ isNaNBits (8 * w) mb q
    · rw [if_pos hnan] at hc; exact absurd hc (by simp)
    · rw [if_neg hnan, Option.some_inj] at hc
      subst hc
      exact lexCmp_serialize_float hw o hp hq (fun hcon => hz hcon)
  case boolean.boolean v v' =>
    refine ⟨by simp [Scalar.encode, serialize_uint_length, serialize_bool], ?_⟩
    intro c hc _
    simp only [Scalar.cmp, Option.some_inj] at hc
    subst hc
    exact lexCmp_serialize_uint o (by cases v <;> norm_num) (by cases v' <;> norm_num)
  case char.char v v' =>
    have hv : v < 2 ^ (8 * 4) := by
      unfold Scalar.valid validCharNat at ha; norm_num at ha ⊢; omega
    have hv' : v' < 2 ^ (8 * 4) := by
      unfold Scalar.valid validCharNat at hb; norm_num at hb ⊢; omega
    refine ⟨by simp [Scalar.encode, serialize_char, serialize_uint_length], ?_⟩
    intro c hc _
    simp only [Scalar.cmp, Option.some_inj] at hc
    subst hc
    exact lexCmp_serialize_uint o hv hv'

/-- Witness for `scalar_encode_order` at `u16` values `1 < 258`, ascending. -/
theorem scalar_encode_order_witness :
    lexCmp ((Scalar.uint 2 1).encode .Ascending)
      ((Scalar.uint 2 258).encode .Ascending) = ordApply .Ascending .lt :=
  (scalar_encode_order (.uint 2 1) (.uint 2 258) .Ascending
    ⟨by norm_num, by norm_num⟩ ⟨by norm_num, by norm_num⟩ rfl).2 .lt (by decide)
    (fun h => h)

/-- Claim **C2.** Every valid primitive value round-trips: decoding the encoding
under the same order returns the value and consumes the whole encoding. -/
theorem scalar_roundtrip (a : Scalar) (o : Order) (ha : a.valid) :
    a.decodeSame o (a.encode o) = .ok (a, []) := by
  cases a
  case uint w v =>
    obtain ⟨hw, hv⟩ := ha
    have h := deserialize_serialize_uint o hv []
    rw [List.append_nil] at h
    simp [Scalar.decodeSame, Scalar.encode, h, Except.map]
  case sint w v =>
    obtain ⟨hw, hv1, hv2⟩ := ha
    have h := deserialize_serialize_int hw o hv1 hv2 []
    rw [List.append_nil] at h
    simp [Scalar.decodeSame, Scalar.encode, h, Except.map]
  case float w mb p =>
    obtain ⟨hwmb, hp⟩ := ha
    have hw : 1 ≤ w := by rcases hwmb with ⟨rfl, -⟩ | ⟨rfl, -⟩ <;> norm_num
    have h := deserialize_serialize_float hw o hp []
    rw [List.append_nil] at h
    simp [Scalar.decodeSame, Scalar.encode, h, Except.map]
  case boolean b =>
    have h := deserialize_serialize_bool b o []
    rw [List.append_nil] at h
    simp [Scalar.decodeSame, Scalar.encode, h, Except.map]
  case char c =>
    have h := deserialize_serialize_char o ha []
    rw [List.append_nil] at h
    simp [Scalar.decodeSame, Scalar.encode, h, Except.map]

/-- Witness for `scalar_roundtrip`: the `i16` value `-2` round-trips under
descending order. -/
theorem scalar_roundtrip_witness :
    (Scalar.sint 2 (-2)).decodeSame .Descending
      ((Scalar.sint 2 (-2)).encode .Descending) = .ok (.sint 2 (-2), []) :=
  scalar_roundtrip (.sint 2 (-2)) .Descending ⟨by norm_num, by norm_num, by norm_num⟩

/-- Claim **C6.** The ascending float encoder emits exactly the big-endian bytes of
`b XOR ((b >> (width-1)) | MIN_INT)` (with the arithmetic shift-or mask
evaluating to a sign-bit flip on non-negative patterns and to a full
complement on negative ones), and the decoder reconstructs the exact original
bit pattern. -/
theorem float_encode_decode (w p : Nat) (hw : w = 4 ∨ w = 8)
    (hp : p < 2 ^ (8 * w)) :
    serialize_float w p .Ascending =
      toBEBytes w (p ^^^ (arithShiftMSB (8 * w) p ||| 2 ^ (8 * w - 1))) ∧
    (p < 2 ^ (8 * w - 1) →
      serialize_float w p .Ascending = toBEBytes w (p + 2 ^ (8 * w - 1))) ∧
    (2 ^ (8 * w - 1) ≤ p →
      serialize_float w p .Ascending = toBEBytes w (2 ^ (8 * w) - 1 - p)) ∧
    deserialize_float w .Ascending (serialize_float w p .Ascending) = .ok (p, []) := by
  have hw1 : 1 ≤ w := by rcases hw with rfl | rfl <;> norm_num
  have hn : 1 ≤ 8 * w := by omega
  refine ⟨rfl, ?_, ?_, ?_⟩
  · intro h
    show toBEBytes w (p ^^^ (arithShiftMSB (8 * w) p ||| 2 ^ (8 * w - 1))) = _
    rw [float_ov_eq hn hp, if_pos h]
  · intro h
    show toBEBytes w (p ^^^ (arithShiftMSB (8 * w) p ||| 2 ^ (8 * w - 1))) = _
    rw [float_ov_eq hn hp, if_neg (by omega)]
  · have h := deserialize_serialize_float hw1 .Ascending hp []
    rw [List.append_nil] at h
    exact h

/-- Witness for `float_encode_decode` at the `f32` pattern of `-0.0`. -/
theorem float_encode_decode_witness :
    deserialize_float 4 .Ascending (serialize_float 4 0x80000000 .Ascending) =
      .ok (0x80000000, []) :=
  (float_encode_decode 4 0x80000000 (Or.inl rfl) (by norm_num)).2.2.2

/-- Claim **C10.** Bool deserialization performs no tag validation: on any one-byte
input and any order it succeeds; under ascending order it returns `false`
exactly for the byte `0` and `true` for every nonzero byte (descending order
complements the byte first). -/
theorem deserialize_bool_accepts_all (b : Nat) (_hb : b < 256) :
    deserialize_bool .Ascending [b] = .ok (decide (b ≠ 0), []) ∧
    deserialize_bool .Unspecified [b] = .ok (decide (b ≠ 0), []) ∧
    deserialize_bool .Descending [b] = .ok (decide (255 - b ≠ 0), []) := by
  have hread : readN 1 [b] = .ok ([b], []) := by
    unfold readN; rw [if_pos (by simp)]; rfl
  have hfrom : fromBEBytes [b] = b := by simp [fromBEBytes]
  refine ⟨?_, ?_, ?_⟩ <;>
    simp only [deserialize_bool, deserialize_uint, hread, Except.map, ordCond, hfrom]
  · norm_num

/-- Witness for `deserialize_bool_accepts_all`: the non-canonical tag byte `2`
decodes to `true` instead of failing. -/
theorem deserialize_bool_accepts_all_witness :
    deserialize_bool .Ascending [2] = .ok (decide ((2 : Nat) ≠ 0), []) :=
  (deserialize_bool_accepts_all 2 (by norm_num)).1

/-! ### `varint.rs`: variable-length unsigned integer codec -/

/-- Rust `u64::leading_zeros` for `v < 2^64`: 64 minus the bit length
(`Nat.log2 v + 1` for nonzero `v`). -/
def leadingZeros64 (v : Nat) : Nat := 64 - (if v = 0 then 0 else Nat.log2 v + 1)

/-- The `LENGTHS` table of `<u64 as VarUInt>::varu_encoded_len`, indexed by
`leading_zeros`. -/
def varu64Lengths : List Nat :=
  [9,9,9,9,9,9,9,9,8,8,8,8,8,8,8,7,7,7,7,7,7,7,6,6,6,6,6,6,6,
   5,5,5,5,5,5,5,4,4,4,4,4,4,4,3,3,3,3,3,3,3,2,2,2,2,2,2,2,1,1,1,1,1,1,1,1]

/-- Rust `<u64 as VarUInt>::varu_encoded_len`. -/
def varu64_encoded_len (v : Nat) : Nat := varu64Lengths.getD (leadingZeros64 v) 0

/-- Rust `trailing_zeros` of a `w`-bit integer (`trailingZeros 8 0 = 8`, as for
`u8`). -/
def trailingZeros : Nat → Nat → Nat
  | 0, _ => 0
  | w + 1, b => if b % 2 = 1 then 0 else trailingZeros w (b / 2) + 1

/-- Rust `varu_decoded_len`: trailing zeros of the first byte, plus one. -/
def varu64_decoded_len (firstByte : Nat) : Nat := trailingZeros 8 firstByte + 1

/-- Rust `varu_to_slice`/`varu_to_writer` for `u64`: the emitted byte string.  The
9-byte case emits a zero length byte then the 8 little-endian value bytes;
otherwise the first `L` little-endian bytes of `(v << 1 | 1) << (L-1)` (the
`% 2^64` models the `u64` arithmetic; in this branch `v < 2^56`, so no
wrapping actually occurs and `v << 1 | 1` is `2*v + 1`). -/
def varu64_encode (v : Nat) : List Nat :=
  let length := varu64_encoded_len v
  if length = 9 then 0 :: toLEBytes 8 v
  else (toLEBytes 8 ((v * 2 + 1) * 2 ^ (length - 1) % 2 ^ 64)).take length

/-- Rust `varu64_decode(len, first_byte, bytes)`: length guard, then assemble the
`len` little-endian bytes (zero padding beyond) and shift right by `len`; the
9-byte case reads the 8 bytes after the length byte.  (The `debug_assertions`
canonicity check is compiled out in release mode and accepts every canonical
encoding.) -/
def varu64_decode (len first : Nat) (bytes : List Nat) : Except Err Nat :=
  if bytes.length + 1 < len then .error .PrematureEndOfInput
  else if len = 9 then .ok (fromLEBytes (bytes.take 8))
  else .ok (fromLEBytes (first :: bytes.take (len - 1)) >>> len)

/-- Rust `varu_from_slice` for `u64`: decoded length from the first byte, then the
value together with that length. -/
def varu64_from_slice (bytes : List Nat) : Except Err (Nat × Nat) :=
  match bytes with
  | [] => .error .PrematureEndOfInput
  | b0 :: rest =>
    (varu64_decode (varu64_decoded_len b0) b0 rest).map
      (fun v => (v, varu64_decoded_len b0))

/-- Closed form of the `LENGTHS` table. -/
theorem varu64Lengths_getD : ∀ i < 65,
    varu64Lengths.getD i 0 =
      if i ≤ 7 then 9 else if i ≤ 63 then (70 - i) / 7 else 1 := by
  decide

/-- Rust `varu_encoded_len` from the binary logarithm, for `L ≤ 8`. -/
theorem varu64_encoded_len_of_bounds {v k : Nat} (hk1 : 1 ≤ k) (hk2 : k ≤ 8)
    (h0 : v ≠ 0) (hlog1 : 7 * (k - 1) ≤ Nat.log2 v) (hlog2 : Nat.log2 v < 7 * k) :
    varu64_encoded_len v = k := by
  unfold varu64_encoded_len leadingZeros64
  rw [if_neg h0, varu64Lengths_getD _ (by omega), if_neg (by omega),
    if_pos (by omega)]
  omega

theorem varu64_encoded_len_eq_nine {v : Nat} (hv : v < 2 ^ 64)
    (h56 : 2 ^ 56 ≤ v) : varu64_encoded_len v = 9 := by
  have h0 : v ≠ 0 := by positivity
  unfold varu64_encoded_len leadingZeros64
  have hl1 : 56 ≤ Nat.log2 v := (Nat.le_log2 h0).2 h56
  have hl2 : Nat.log2 v < 64 := (Nat.log2_lt h0).2 hv
  rw [if_neg h0, varu64Lengths_getD _ (by omega), if_pos (by omega)]

/-- Closed form of `varu_encoded_len` on the whole `u64` range. -/
theorem varu64_encoded_len_eq {v : Nat} (hv : v < 2 ^ 64) :
    varu64_encoded_len v =
      if v < 2 ^ 7 then 1 else if v < 2 ^ 14 then 2 else if v < 2 ^ 21 then 3
      else if v < 2 ^ 28 then 4 else if v < 2 ^ 35 then 5
      else if v < 2 ^ 42 then 6 else if v < 2 ^ 49 then 7
      else if v < 2 ^ 56 then 8 else 9 := by
  by_cases h0 : v = 0
  · subst h0; decide
  have hlow : ∀ k : Nat, ¬ v < 2 ^ k → k ≤ Nat.log2 v :=
    fun k hk => (Nat.le_log2 h0).2 (Nat.le_of_not_lt hk)
  have hhigh : ∀ k : Nat, v < 2 ^ k → Nat.log2 v < k :=
    fun k hk => (Nat.log2_lt h0).2 hk
  by_cases h1 : v < 2 ^ 7
  · rw [if_pos h1]
    exact varu64_encoded_len_of_bounds (by norm_num) (by norm_num) h0
      (by omega) (by simpa using hhigh 7 h1)
  rw [if_neg h1]
  by_cases h2 : v < 2 ^ 14
  · rw [if_pos h2]
    exact varu64_encoded_len_of_bounds (by norm_num) (by norm_num) h0
      (by simpa using hlow 7 h1) (by simpa using hhigh 14 h2)
  rw [if_neg h2]
  by_cases h3 : v < 2 ^ 21
  · rw [if_pos h3]
    exact varu64_encoded_len_of_bounds (by norm_num) (by norm_num) h0
      (by simpa using hlow 14 h2) (by simpa using hhigh 21 h3)
  rw [if_neg h3]
  by_cases h4 : v < 2 ^ 28
  · rw [if_pos h4]
    exact varu64_encoded_len_of_bounds (by norm_num) (by norm_num) h0
      (by simpa using hlow 21 h3) (by simpa using hhigh 28 h4)
  rw [if_neg h4]
  by_cases h5 : v < 2 ^ 35
  · rw [if_pos h5]
    exact varu64_encoded_len_of_bounds (by norm_num) (by norm_num) h0
      (by simpa using hlow 28 h4) (by simpa using hhigh 35 h5)
  rw [if_neg h5]
  by_cases h6 : v < 2 ^ 42
  · rw [if_pos h6]
    exact varu64_encoded_len_of_bounds (by norm_num) (by norm_num) h0
      (by simpa using hlow 35 h5) (by simpa using hhigh 42 h6)
  rw [if_neg h6]
  by_cases h7 : v < 2 ^ 49
  · rw [if_pos h7]
    exact varu64_encoded_len_of_bounds (by norm_num) (by norm_num) h0
      (by simpa using hlow 42 h6) (by simpa using hhigh 49 h7)
  rw [if_neg h7]
  by_cases h8 : v < 2 ^ 56
  · rw [if_pos h8]
    exact varu64_encoded_len_of_bounds (by norm_num) (by norm_num) h0
      (by simpa using hlow 49 h7) (by simpa using hhigh 56 h8)
  rw [if_neg h8]
  exact varu64_encoded_len_eq_nine hv (Nat.le_of_not_lt h8)

/-- Trailing zeros of `m * 2^k` reduced to `w` bits, for odd `m`. -/
theorem trailingZeros_odd_shift {k : Nat} (m : Nat) (hm : m % 2 = 1) :
    ∀ w, k < w → trailingZeros w ((m * 2 ^ k) % 2 ^ w) = k := by
  induction k with
  | zero =>
    intro w hw
    cases w with
    | zero => omega
    | succ w' =>
      unfold trailingZeros
      rw [if_pos (by
        rw [Nat.mod_mod_of_dvd _ ⟨2 ^ w', by ring⟩]
        simpa using hm)]
  | succ k ih =>
    intro w hw
    cases w with
    | zero => omega
    | succ w' =>
      have hrw : (m * 2 ^ (k + 1)) % 2 ^ (w' + 1) = 2 * ((m * 2 ^ k) % 2 ^ w') := by
        calc (m * 2 ^ (k + 1)) % 2 ^ (w' + 1)
            = (2 * (m * 2 ^ k)) % (2 * 2 ^ w') := by ring_nf
        _ = 2 * ((m * 2 ^ k) % 2 ^ w') := Nat.mul_mod_mul_left _ _ _
      unfold trailingZeros
      rw [hrw, if_neg (by omega), Nat.mul_div_cancel_left _ (by norm_num),
        ih w' (by omega)]

/-- Value of a `k`-byte prefix of a little-endian encoding. -/
theorem fromLEBytes_take_toLEBytes : ∀ (k w x : Nat), k ≤ w →
    fromLEBytes ((toLEBytes w x).take k) = x % 2 ^ (8 * k) := by
  intro k
  induction k with
  | zero => intro w x _; simp [fromLEBytes, Nat.mod_one]
  | succ k ih =>
    intro w x hk
    cases w with
    | zero => omega
    | succ w' =>
      simp only [toLEBytes, List.take_succ_cons, fromLEBytes]
      rw [ih w' (x / 256) (by omega)]
      have h1 : (2 : Nat) ^ (8 * (k + 1)) = 256 * 2 ^ (8 * k) := by
        rw [show 8 * (k + 1) = 8 + 8 * k by ring, pow_add]; norm_num
      rw [h1, Nat.mod_mul]

theorem fromLEBytes_toLEBytes {w x : Nat} (h : x < 2 ^ (8 * w)) :
    fromLEBytes (toLEBytes w x) = x := by
  have htake : (toLEBytes w x).take w = toLEBytes w x := by
    rw [List.take_of_length_le (by rw [length_toLEBytes])]
  rw [← htake, fromLEBytes_take_toLEBytes w w x le_rfl, Nat.mod_eq_of_lt h]

theorem varu64_encoded_len_range {v : Nat} (hv : v < 2 ^ 64) :
    1 ≤ varu64_encoded_len v ∧ varu64_encoded_len v ≤ 9 := by
  rw [varu64_encoded_len_eq hv]
  split_ifs <;> norm_num

/-- The encoded length is minimal: the value fits in `7L` bits and in no
fewer groups of 7. -/
theorem varu64_len_minimal {v : Nat} (hv : v < 2 ^ 64) :
    (varu64_encoded_len v ≤ 8 → v < 2 ^ (7 * varu64_encoded_len v)) ∧
    (∀ L', 1 ≤ L' → L' < varu64_encoded_len v → 2 ^ (7 * L') ≤ v) := by
  rw [varu64_encoded_len_eq hv]
  by_cases h1 : v < 2 ^ 7
  · rw [if_pos h1]
    exact ⟨fun _ => h1.trans_le (le_of_eq (by norm_num)),
      fun L' hL1 hL2 => absurd hL2 (by omega)⟩
  rw [if_neg h1]
  by_cases h2 : v < 2 ^ 14
  · rw [if_pos h2]
    refine ⟨fun _ => h2.trans_le (le_of_eq (by norm_num)), fun L' hL1 hL2 => ?_⟩
    calc (2:Nat) ^ (7 * L') ≤ 2 ^ 7 := Nat.pow_le_pow_right (by norm_num) (by omega)
    _ ≤ v := Nat.le_of_not_lt h1
  rw [if_neg h2]
  by_cases h3 : v < 2 ^ 21
  · rw [if_pos h3]
    refine ⟨fun _ => h3.trans_le (le_of_eq (by norm_num)), fun L' hL1 hL2 => ?_⟩
    calc (2:Nat) ^ (7 * L') ≤ 2 ^ 14 := Nat.pow_le_pow_right (by norm_num) (by omega)
    _ ≤ v := Nat.le_of_not_lt h2
  rw [if_neg h3]
  by_cases h4 : v < 2 ^ 28
  · rw [if_pos h4]
    refine ⟨fun _ => h4.trans_le (le_of_eq (by norm_num)), fun L' hL1 hL2 => ?_⟩
    calc (2:Nat) ^ (7 * L') ≤ 2 ^ 21 := Nat.pow_le_pow_right (by norm_num) (by omega)
    _ ≤ v := Nat.le_of_not_lt h3
  rw [if_neg h4]
  by_cases h5 : v < 2 ^ 35
  · rw [if_pos h5]
    refine ⟨fun _ => h5.trans_le (le_of_eq (by norm_num)), fun L' hL1 hL2 => ?_⟩
    calc (2:Nat) ^ (7 * L') ≤ 2 ^ 28 := Nat.pow_le_pow_right (by norm_num) (by omega)
    _ ≤ v := Nat.le_of_not_lt h4
  rw [if_neg h5]
  by_cases h6 : v < 2 ^ 42
  · rw [if_pos h6]
    refine ⟨fun _ => h6.trans_le (le_of_eq (by norm_num)), fun L' hL1 hL2 => ?_⟩
    calc (2:Nat) ^ (7 * L') ≤ 2 ^ 35 := Nat.pow_le_pow_right (by norm_num) (by omega)
    _ ≤ v := Nat.le_of_not_lt h5
  rw [if_neg h6]
  by_cases h7 : v < 2 ^ 49
  · rw [if_pos h7]
    refine ⟨fun _ => h7.trans_le (le_of_eq (by norm_num)), fun L' hL1 hL2 => ?_⟩
    calc (2:Nat) ^ (7 * L') ≤ 2 ^ 42 := Nat.pow_le_pow_right (by norm_num) (by omega)
    _ ≤ v := Nat.le_of_not_lt h6
  rw [if_neg h7]
  by_cases h8 : v < 2 ^ 56
  · rw [if_pos h8]
    refine ⟨fun _ => h8.trans_le (le_of_eq (by norm_num)), fun L' hL1 hL2 => ?_⟩
    calc (2:Nat) ^ (7 * L') ≤ 2 ^ 49 := Nat.pow_le_pow_right (by norm_num) (by omega)
    _ ≤ v := Nat.le_of_not_lt h7
  rw [if_neg h8]
  refine ⟨fun h => by norm_num at h, fun L' hL1 hL2 => ?_⟩
  calc (2:Nat) ^ (7 * L') ≤ 2 ^ 56 := Nat.pow_le_pow_right (by norm_num) (by omega)
  _ ≤ v := Nat.le_of_not_lt h8

/-- The shifted word of the short branch fits in `8L` bits. -/
theorem varu64_shift_bound {v L : Nat} (hL1 : 1 ≤ L)
    (hv : v < 2 ^ (7 * L)) :
    (v * 2 + 1) * 2 ^ (L - 1) < 2 ^ (8 * L) := by
  have h1 : v * 2 + 1 < 2 ^ (7 * L + 1) := by
    have h2 : (2:Nat) ^ (7 * L + 1) = 2 ^ (7 * L) * 2 := by ring
    omega
  calc (v * 2 + 1) * 2 ^ (L - 1)
      < 2 ^ (7 * L + 1) * 2 ^ (L - 1) :=
        mul_lt_mul_of_pos_right h1 (Nat.pos_pow_of_pos _ (by norm_num))
  _ = 2 ^ (7 * L + 1 + (L - 1)) := by rw [← pow_add]
  _ = 2 ^ (8 * L) := by congr 1; omega

/-- In the short branch the `% 2^64` of the embedding drops out. -/
theorem varu64_encode_short {v : Nat} (hv : v < 2 ^ 64)
    (h8 : varu64_encoded_len v ≤ 8) :
    varu64_encode v =
      (toLEBytes 8 ((v * 2 + 1) * 2 ^ (varu64_encoded_len v - 1))).take
        (varu64_encoded_len v) := by
  have hpos := (varu64_encoded_len_range hv).1
  have hb := varu64_shift_bound hpos ((varu64_len_minimal hv).1 h8)
  unfold varu64_encode
  rw [if_neg (by omega)]
  congr 2
  exact Nat.mod_eq_of_lt (lt_of_lt_of_le hb
    (Nat.pow_le_pow_right (by norm_num) (by omega)))

theorem varu64_encode_length {v : Nat} (hv : v < 2 ^ 64) :
    (varu64_encode v).length = varu64_encoded_len v := by
  obtain ⟨h1, h9⟩ := varu64_encoded_len_range hv
  by_cases h : varu64_encoded_len v = 9
  · unfold varu64_encode
    rw [if_pos h, h]
    simp [length_toLEBytes]
  · rw [varu64_encode_short hv (by omega)]
    simp only [List.length_take, length_toLEBytes]
    omega

/-- First byte of the encoding: `L - 1` trailing zeros (`8` for the zero byte
of the 9-byte case). -/
theorem varu64_first_byte {v : Nat} (hv : v < 2 ^ 64) :
    trailingZeros 8 ((varu64_encode v).headI) = varu64_encoded_len v - 1 ∧
    (varu64_encoded_len v = 9 → (varu64_encode v).headI = 0) := by
  obtain ⟨h1, h9⟩ := varu64_encoded_len_range hv
  by_cases h : varu64_encoded_len v = 9
  · have hhead : (varu64_encode v).headI = 0 := by
      unfold varu64_encode
      rw [if_pos h]
      rfl
    rw [hhead, h]
    exact ⟨by decide, fun _ => rfl⟩
  · have h8 : varu64_encoded_len v ≤ 8 := by omega
    refine ⟨?_, fun hc => absurd hc h⟩
    rw [varu64_encode_short hv h8]
    obtain ⟨k, hk⟩ : ∃ k, varu64_encoded_len v = k + 1 :=
      ⟨varu64_encoded_len v - 1, by omega⟩
    rw [hk]
    have hhead :
        ((toLEBytes 8 ((v * 2 + 1) * 2 ^ (k + 1 - 1))).take (k + 1)).headI =
          ((v * 2 + 1) * 2 ^ k) % 256 := by
      simp [toLEBytes]
    rw [hhead]
    have h256 : (256 : Nat) = 2 ^ 8 := by norm_num
    rw [h256]
    have := trailingZeros_odd_shift (v * 2 + 1) (by omega) 8 (show k < 8 by omega)
    simpa using this

/-- Decoding the encoding returns the value and the encoded length. -/
theorem varu64_decode_encode {v : Nat} (hv : v < 2 ^ 64) :
    varu64_from_slice (varu64_encode v) = .ok (v, varu64_encoded_len v) := by
  obtain ⟨h1, h9⟩ := varu64_encoded_len_range hv
  by_cases h : varu64_encoded_len v = 9
  · unfold varu64_encode
    rw [if_pos h]
    have hdl : varu64_decoded_len 0 = 9 := by decide
    simp only [varu64_from_slice, hdl]
    unfold varu64_decode
    rw [if_neg (by simp [length_toLEBytes]), if_pos rfl]
    have htake : (toLEBytes 8 v).take 8 = toLEBytes 8 v :=
      List.take_of_length_le (by rw [length_toLEBytes])
    rw [htake, fromLEBytes_toLEBytes hv, h]
    rfl
  · have h8 : varu64_encoded_len v ≤ 8 := by omega
    have hvL := (varu64_len_minimal hv).1 h8
    obtain ⟨k, hk⟩ : ∃ k, varu64_encoded_len v = k + 1 :=
      ⟨varu64_encoded_len v - 1, by omega⟩
    have hfb := (varu64_first_byte hv).1
    rw [varu64_encode_short hv h8, hk] at hfb ⊢
    set enc := (v * 2 + 1) * 2 ^ (k + 1 - 1) with henc
    have hsplit : toLEBytes 8 enc = enc % 256 :: toLEBytes 7 (enc / 256) := rfl
    rw [hsplit, List.take_succ_cons]
    have hdl : varu64_decoded_len (enc % 256) = k + 1 := by
      unfold varu64_decoded_len
      rw [hsplit, List.take_succ_cons] at hfb
      simp only [List.headI] at hfb
      omega
    simp only [varu64_from_slice, hdl]
    unfold varu64_decode
    have hlt : ((toLEBytes 7 (enc / 256)).take k).length = k := by
      simp [List.length_take, length_toLEBytes]
      omega
    rw [if_neg (by omega), if_neg (by omega)]
    have htt : ((toLEBytes 7 (enc / 256)).take k).take (k + 1 - 1) =
        (toLEBytes 7 (enc / 256)).take k := by
      simp
    rw [htt]
    have hjoin : (enc % 256 :: (toLEBytes 7 (enc / 256)).take k) =
        (toLEBytes 8 enc).take (k + 1) := by
      rw [hsplit, List.take_succ_cons]
    rw [hjoin, fromLEBytes_take_toLEBytes (k + 1) 8 enc (by omega)]
    have hebound : enc < 2 ^ (8 * (k + 1)) := by
      rw [henc]
      exact varu64_shift_bound (by omega) (hk ▸ hvL)
    rw [Nat.mod_eq_of_lt hebound, Nat.shiftRight_eq_div_pow]
    have hdiv : enc / 2 ^ (k + 1) = v := by
      rw [henc]
      have he : (2:Nat) ^ (k + 1) = 2 ^ k * 2 := by ring
      have he2 : (v * 2 + 1) * 2 ^ (k + 1 - 1) = 2 ^ k * (v * 2 + 1) := by
        rw [Nat.add_sub_cancel]; ring
      rw [he, he2, Nat.mul_div_mul_left _ _ (Nat.pos_pow_of_pos _ (by norm_num))]
      omega
    rw [hdiv]
    rfl

/-- Claim **C5.** For every `u64` value `v`, the varint encoded length `L` is the
least `L ∈ 1..=9` with `v < 2^(7L)` for `L ≤ 8` (and `L = 9` for
`v ≥ 2^56`); the first encoded byte has exactly `L - 1` trailing zero bits
(the zero byte in the 9-byte case); and decoding the encoding returns
`(v, L)`. -/
theorem varu64_canonical_roundtrip (v : Nat) (hv : v < 2 ^ 64) :
    (1 ≤ varu64_encoded_len v ∧ varu64_encoded_len v ≤ 9) ∧
    (varu64_encoded_len v ≤ 8 → v < 2 ^ (7 * varu64_encoded_len v)) ∧
    (∀ L', 1 ≤ L' → L' < varu64_encoded_len v → 2 ^ (7 * L') ≤ v) ∧
    (2 ^ 56 ≤ v → varu64_encoded_len v = 9) ∧
    trailingZeros 8 ((varu64_encode v).headI) = varu64_encoded_len v - 1 ∧
    (varu64_encoded_len v = 9 → (varu64_encode v).headI = 0) ∧
    varu64_from_slice (varu64_encode v) = .ok (v, varu64_encoded_len v) :=
  ⟨varu64_encoded_len_range hv, (varu64_len_minimal hv).1,
    (varu64_len_minimal hv).2, varu64_encoded_len_eq_nine hv,
    (varu64_first_byte hv).1, (varu64_first_byte hv).2,
    varu64_decode_encode hv⟩

/-- Witness for `varu64_canonical_roundtrip` at `v = 300` (two-byte
encoding). -/
theorem varu64_canonical_roundtrip_witness :
    varu64_from_slice (varu64_encode 300) = .ok (300, varu64_encoded_len 300) :=
  (varu64_canonical_roundtrip 300 (by norm_num)).2.2.2.2.2.2

/-! ### `bytes_esc.rs`: prefix-free escaped byte strings

The ascending alphabet is `START = 0xF8`, `ESC = 0xFF`, `TERM = 0x01`
(`BSTR_ESCAPE_ASC`); the descending alphabet is its bitwise complement
`0x07, 0x00, 0xFE`, and descending content bytes are complemented. -/

/-- Body of the `serialize_bytes` loop: each input byte equal to `0xF8`
becomes the two-byte pair `[s, e]` of the active alphabet, any other byte `b`
becomes `[tr b]` (`tr` is the identity for ascending and `255 - b` for
descending). -/
def escBody (s e : Nat) (tr : Nat → Nat) : List Nat → List Nat
  | [] => []
  | b :: rest => (if b = 0xF8 then [s, e] else [tr b]) ++ escBody s e tr rest

/-- Rust `serialize_bytes`: escaped body followed by the `START, TERM` terminator
of the order's alphabet. -/
def serialize_bytes (o : Order) (value : List Nat) : List Nat :=
  ordCond o
    (escBody 0x07 0x00 (fun b => 255 - b) value ++ [0x07, 0xFE])
    (escBody 0xF8 0xFF id value ++ [0xF8, 0x01])

/-- The loop of `apply_over_esc(rb, esc, advance, f)` with the byte-decoding
callbacks: find the first occurrence of the marker `s`; fail with
`PrematureEndOfInput` if it is absent or last; dispatch on the byte after it:
the escape byte `e` appends the chunk up to and including `s` to the output
and continues, the terminator `t` appends the chunk without `s` and stops,
anything else is `InvalidByteSequenceEscape`.  Returns the output together
with the suffix remaining in the loop-local cursor `b`. -/
def escLoop (s e t : Nat) (b : List Nat) : Except Err (List Nat × List Nat) :=
  if _h2 : 2 ≤ (b.drop (b.takeWhile (· != s)).length).length then
    if (b.drop (b.takeWhile (· != s)).length).getD 1 0 = e then
      (escLoop s e t ((b.drop (b.takeWhile (· != s)).length).drop 2)).map
        (fun p => (b.takeWhile (· != s) ++ [s] ++ p.1, p.2))
    else if (b.drop (b.takeWhile (· != s)).length).getD 1 0 = t then
      .ok (b.takeWhile (· != s), (b.drop (b.takeWhile (· != s)).length).drop 2)
    else .error .InvalidByteSequenceEscape
  else .error .PrematureEndOfInput
termination_by b.length
decreasing_by
  simp only [List.drop_drop, List.length_drop] at _h2 ⊢
  omega

/-- Rust `read_escaped_bytes_asc` composed with the `advance = true` bookkeeping of
`apply_over_esc`: the reader is advanced by `b.len()` — the length of the
suffix left after the loop, not of the consumed prefix.  Returns the decoded
output and the reader state after the call. -/
def read_escaped_bytes_asc (r : List Nat) : Except Err (List Nat × List Nat) :=
  (escLoop 0xF8 0xFF 0x01 r).map (fun p => (p.1, r.drop p.2.length))

/-- Rust `read_escaped_bytes_desc`: same loop over the complement alphabet, output
chunks complemented (`write_complement_bytes`). -/
def read_escaped_bytes_desc (r : List Nat) : Except Err (List Nat × List Nat) :=
  (escLoop 0x07 0x00 0xFE r).map
    (fun p => (p.1.map (fun b => 255 - b), r.drop p.2.length))

/-- Rust `deserialize_bytes_to_writer`. -/
def deserialize_bytes_to_writer (o : Order) (r : List Nat) :
    Except Err (List Nat × List Nat) :=
  ordCond o (read_escaped_bytes_desc r) (read_escaped_bytes_asc r)

theorem takeWhile_ne (s : Nat) : ∀ (pre : List Nat), (∀ b ∈ pre, b ≠ s) →
    ∀ l, ((pre ++ s :: l).takeWhile (· != s)) = pre := by
  intro pre
  induction pre with
  | nil =>
    intro _ l
    simp [List.takeWhile_cons]
  | cons a tl ih =>
    intro h l
    have ha : a ≠ s := h a (by simp)
    simp only [List.cons_append, List.takeWhile_cons]
    rw [if_pos (by simpa using ha), ih (fun b hb => h b (by simp [hb])) l]

/-- One unfolding of `escLoop` at a marker occurrence. -/
theorem escLoop_step (s e t : Nat) (pre : List Nat) (hpre : ∀ b ∈ pre, b ≠ s)
    (c : Nat) (rest : List Nat) :
    escLoop s e t (pre ++ s :: c :: rest) =
      if c = e then
        (escLoop s e t rest).map (fun p => (pre ++ [s] ++ p.1, p.2))
      else if c = t then .ok (pre, rest)
      else .error .InvalidByteSequenceEscape := by
  have htw : ((pre ++ s :: c :: rest).takeWhile (· != s)) = pre :=
    takeWhile_ne s pre hpre (c :: rest)
  rw [escLoop.eq_def]
  simp only [htw, List.drop_left]
  rw [dif_pos (by simp)]
  simp only [List.getD_cons_succ, List.getD_cons_zero, List.drop_succ_cons,
    List.drop_zero]

/-- Rust `escLoop` on an escaped body followed by the terminator: returns the
decoded bytes (the marker for escaped `0xF8`s, `tr b` otherwise) and leaves
exactly the bytes after the terminator in the loop cursor. -/
theorem escLoop_encode (s e t : Nat) (tr : Nat → Nat) (hET : e ≠ t) :
    ∀ (x : List Nat), (∀ b ∈ x, b ≠ 0xF8 → tr b ≠ s) →
      ∀ (pre rest : List Nat), (∀ b ∈ pre, b ≠ s) →
        escLoop s e t (pre ++ (escBody s e tr x ++ [s, t] ++ rest)) =
          .ok (pre ++ x.map (fun b => if b = 0xF8 then s else tr b), rest) := by
  intro x
  induction x with
  | nil =>
    intro _ pre rest hpre
    have h := escLoop_step s e t pre hpre t rest
    rw [if_neg (Ne.symm hET), if_pos rfl] at h
    simpa [escBody] using h
  | cons b xs ih =>
    intro hx pre rest hpre
    by_cases hb : b = 0xF8
    · subst hb
      have harr : pre ++ (escBody s e tr (0xF8 :: xs) ++ [s, t] ++ rest) =
          pre ++ s :: e :: (escBody s e tr xs ++ [s, t] ++ rest) := by
        simp [escBody]
      rw [harr, escLoop_step s e t pre hpre e _, if_pos rfl]
      have hrec := ih (fun b hb => hx b (by simp [hb])) [] rest (by simp)
      rw [List.nil_append] at hrec
      rw [hrec]
      simp [escBody, Except.map]
    · have harr : pre ++ (escBody s e tr (b :: xs) ++ [s, t] ++ rest) =
          (pre ++ [tr b]) ++ (escBody s e tr xs ++ [s, t] ++ rest) := by
        simp [escBody, hb]
      rw [harr, ih (fun b hb => hx b (by simp [hb])) (pre ++ [tr b]) rest
        (by
          intro y hy
          rcases List.mem_append.1 hy with h | h
          · exact hpre y h
          · simp only [List.mem_singleton] at h
            subst h
            exact hx b (by simp) hb)]
      simp [hb]

theorem escLoop_serialize_asc (x rest : List Nat) :
    escLoop 0xF8 0xFF 0x01 (serialize_bytes .Ascending x ++ rest) =
      .ok (x, rest) := by
  have h := escLoop_encode 0xF8 0xFF 0x01 id (by norm_num) x
    (fun _ _ hb => hb) [] rest (by simp)
  simp only [List.nil_append] at h
  have harr : serialize_bytes .Ascending x ++ rest =
      escBody 0xF8 0xFF id x ++ [0xF8, 0x01] ++ rest := by
    simp [serialize_bytes, ordCond]
  rw [harr, h]
  have hmap : x.map (fun b => if b = 0xF8 then 0xF8 else id b) = x := by
    have hcong : ∀ b ∈ x, (if b = 0xF8 then 0xF8 else id b) = (fun a => a) b := by
      intro b _
      by_cases hb : b = 0xF8 <;> simp [hb]
    rw [List.map_congr_left hcong, List.map_id']
  rw [hmap]

theorem escLoop_serialize_desc (x rest : List Nat) :
    escLoop 0x07 0x00 0xFE (serialize_bytes .Descending x ++ rest) =
      .ok (x.map (fun b => if b = 0xF8 then 0x07 else 255 - b), rest) := by
  have h := escLoop_encode 0x07 0x00 0xFE (fun b => 255 - b) (by norm_num) x
    (fun b _ hb => by
      change 255 - b ≠ 0x07
      omega) [] rest (by simp)
  simp only [List.nil_append] at h
  have harr : serialize_bytes .Descending x ++ rest =
      escBody 0x07 0x00 (fun b => 255 - b) x ++ [0x07, 0xFE] ++ rest := by
    simp [serialize_bytes, ordCond]
  rw [harr, h]

/-- Ascending decode output is exactly the original byte string (the second
component is the post-call reader state produced by the advance
bookkeeping). -/
theorem read_asc_output (x rest : List Nat) :
    read_escaped_bytes_asc (serialize_bytes .Ascending x ++ rest) =
      .ok (x, (serialize_bytes .Ascending x ++ rest).drop rest.length) := by
  unfold read_escaped_bytes_asc
  rw [escLoop_serialize_asc]
  rfl

theorem read_desc_output (x rest : List Nat) (hx : ∀ b ∈ x, b < 256) :
    read_escaped_bytes_desc (serialize_bytes .Descending x ++ rest) =
      .ok (x, (serialize_bytes .Descending x ++ rest).drop rest.length) := by
  unfold read_escaped_bytes_desc
  rw [escLoop_serialize_desc]
  have hmap : (x.map (fun b => if b = 0xF8 then 0x07 else 255 - b)).map
      (fun b => 255 - b) = x := by
    rw [List.map_map]
    have hcong : ∀ b ∈ x,
        ((fun b => 255 - b) ∘ fun b => if b = 0xF8 then 0x07 else 255 - b) b =
          (fun a => a) b := by
      intro b hb
      have hlt := hx b hb
      by_cases h8 : b = 0xF8
      · simp [h8, Function.comp]
      · simp only [Function.comp, if_neg h8]
        omega
    rw [List.map_congr_left hcong, List.map_id']
  simp only [Except.map, hmap]

/-- Ascending escaped encodings order like their contents whenever the two
strings differ at a position present in both. -/
theorem lexCmp_serialize_bytes_asc :
    ∀ (x y : List Nat),
      (∃ i, i < x.length ∧ i < y.length ∧ x.getD i 0 ≠ y.getD i 0) →
      lexCmp (serialize_bytes .Ascending x) (serialize_bytes .Ascending y) =
        lexCmp x y := by
  intro x
  induction x with
  | nil =>
    intro y hd
    obtain ⟨i, hi, -, -⟩ := hd
    simp at hi
  | cons a xs ih =>
    intro y hd
    cases y with
    | nil =>
      obtain ⟨i, -, hi, -⟩ := hd
      simp at hi
    | cons b ys =>
      have htok : ∀ (h : Nat) (tl : List Nat), serialize_bytes .Ascending (h :: tl) =
          (if h = 0xF8 then [0xF8, 0xFF] else [h]) ++ serialize_bytes .Ascending tl := by
        intro h tl
        simp [serialize_bytes, ordCond, escBody, List.append_assoc]
      by_cases hab : a = b
      · subst hab
        rw [htok a xs, htok a ys, lexCmp_append_same, lexCmp_cons, cmpN_self,
          Ordering_eq_then]
        apply ih
        obtain ⟨i, hi1, hi2, hne⟩ := hd
        cases i with
        | zero => simp at hne
        | succ j =>
          exact ⟨j, by simpa using hi1, by simpa using hi2, by simpa using hne⟩
      · have hRHS : lexCmp (a :: xs) (b :: ys) = cmpN a b := by
          rw [lexCmp_cons, Ordering_then_of_ne (fun hc => hab (cmpN_eq_iff.1 hc))]
        rw [hRHS, htok a xs, htok b ys]
        by_cases ha8 : a = 0xF8 <;> by_cases hb8 : b = 0xF8
        · exact absurd (ha8.trans hb8.symm) hab
        · subst ha8
          rw [if_pos rfl, if_neg hb8]
          simp only [List.cons_append, List.singleton_append, lexCmp_cons]
          rw [Ordering_then_of_ne (fun hc => hb8 (cmpN_eq_iff.1 hc).symm)]
        · subst hb8
          rw [if_pos rfl, if_neg ha8]
          simp only [List.cons_append, List.singleton_append, lexCmp_cons]
          rw [Ordering_then_of_ne (fun hc => ha8 (cmpN_eq_iff.1 hc))]
        · rw [if_neg ha8, if_neg hb8]
          simp only [List.singleton_append, lexCmp_cons]
          rw [Ordering_then_of_ne (fun hc => hab (cmpN_eq_iff.1 hc))]

/-- Descending escaped encodings order reversed, again for pairs differing at
a common position. -/
theorem lexCmp_serialize_bytes_desc :
    ∀ (x y : List Nat), (∀ b ∈ x, b < 256) → (∀ b ∈ y, b < 256) →
      (∃ i, i < x.length ∧ i < y.length ∧ x.getD i 0 ≠ y.getD i 0) →
      lexCmp (serialize_bytes .Descending x) (serialize_bytes .Descending y) =
        (lexCmp x y).swap := by
  intro x
  induction x with
  | nil =>
    intro y _ _ hd
    obtain ⟨i, hi, -, -⟩ := hd
    simp at hi
  | cons a xs ih =>
    intro y hx hy hd
    cases y with
    | nil =>
      obtain ⟨i, -, hi, -⟩ := hd
      simp at hi
    | cons b ys =>
      have htok : ∀ (h : Nat) (tl : List Nat),
          serialize_bytes .Descending (h :: tl) =
            (if h = 0xF8 then [0x07, 0x00] else [255 - h]) ++
              serialize_bytes .Descending tl := by
        intro h tl
        simp [serialize_bytes, ordCond, escBody, List.append_assoc]
      have ha256 : a < 256 := hx a (by simp)
      have hb256 : b < 256 := hy b (by simp)
      by_cases hab : a = b
      · subst hab
        rw [htok a xs, htok a ys, lexCmp_append_same, lexCmp_cons, cmpN_self,
          Ordering_eq_then]
        apply ih ys (fun u hu => hx u (by simp [hu])) (fun u hu => hy u (by simp [hu]))
        obtain ⟨i, hi1, hi2, hne⟩ := hd
        cases i with
        | zero => simp at hne
        | succ j =>
          exact ⟨j, by simpa using hi1, by simpa using hi2, by simpa using hne⟩
      · have hRHS : lexCmp (a :: xs) (b :: ys) = cmpN a b := by
          rw [lexCmp_cons, Ordering_then_of_ne (fun hc => hab (cmpN_eq_iff.1 hc))]
        rw [hRHS, htok a xs, htok b ys]
        have hswap : cmpN (255 - a) (255 - b) = (cmpN a b).swap := by
          have := cmpN_sub_sub (M := 256) ha256 hb256
          simpa using this
        by_cases ha8 : a = 0xF8 <;> by_cases hb8 : b = 0xF8
        · exact absurd (ha8.trans hb8.symm) hab
        · subst ha8
          rw [if_pos rfl, if_neg hb8]
          simp only [List.cons_append, List.singleton_append, lexCmp_cons]
          rw [Ordering_then_of_ne (fun hc => hb8 (by
            have h7 : (0x07 : Nat) = 255 - 0xF8 := by norm_num
            have hbb : (255 : Nat) - b = 0x07 := by
              have := cmpN_eq_iff.1 hc; omega
            omega))]
          have h7 : (0x07 : Nat) = 255 - 0xF8 := by norm_num
          rw [h7, hswap]
        · subst hb8
          rw [if_pos rfl, if_neg ha8]
          simp only [List.cons_append, List.singleton_append, lexCmp_cons]
          rw [Ordering_then_of_ne (fun hc => ha8 (by
            have := cmpN_eq_iff.1 hc; omega))]
          have h7 : (0x07 : Nat) = 255 - 0xF8 := by norm_num
          rw [h7, hswap]
        · rw [if_neg ha8, if_neg hb8]
          simp only [List.singleton_append, lexCmp_cons]
          rw [Ordering_then_of_ne (fun hc => hab (by
            have := cmpN_eq_iff.1 hc; omega)), hswap]

/-! ### Claims C3 and C4 -/

/-- Claim C3: the escape decoder does not consume exactly the bytes of one
encoding.  `apply_over_esc` advances the reader by the length of the suffix
left after the loop (`rb.advance(b.len())`) instead of by the consumed
prefix.  Concretely, with `x = []` and `y = [0x41]`: after decoding `x` from
`escape_asc(x) ++ escape_asc(y) = [F8 01 41 F8 01]`, the reader holds
`[F8, 01]` instead of `escape_asc(y) = [41, F8, 01]`, so decoding the second
value yields `[]` rather than `y`; decoding from the correct suffix would
have output `y = [0x41]`. -/
theorem escape_decoder_wrong_advance :
    serialize_bytes .Ascending [] = [0xF8, 0x01] ∧
    serialize_bytes .Ascending [0x41] = [0x41, 0xF8, 0x01] ∧
    read_escaped_bytes_asc ([0xF8, 0x01] ++ [0x41, 0xF8, 0x01]) =
      .ok ([], [0xF8, 0x01]) ∧
    read_escaped_bytes_asc [0xF8, 0x01] = .ok ([], [0xF8, 0x01]) ∧
    (read_escaped_bytes_asc [0x41, 0xF8, 0x01]).map Prod.fst = .ok [0x41] := by
  refine ⟨rfl, rfl, ?_, ?_, ?_⟩
  · have h := read_asc_output [] [0x41, 0xF8, 0x01]
    simpa using h
  · have h := read_asc_output [] ([] : List Nat)
    simpa using h
  · have h := read_asc_output [0x41] ([] : List Nat)
    rw [List.append_nil] at h
    have hser : serialize_bytes .Ascending [0x41] = [0x41, 0xF8, 0x01] := rfl
    rw [hser] at h
    rw [h]
    rfl

/-- Claim C4, ordering counterexample: `x = [0x61]` is a strict prefix of
`y = [0x61, 0x62]`, so `x` sorts before `y`; but the terminator byte `0xF8`
sorts above the content byte `0x62`, so `escape_asc(x)` sorts *after*
`escape_asc(y)`. -/
theorem escaped_order_counterexample :
    lexCmp [0x61] [0x61, 0x62] = .lt ∧
    lexCmp (serialize_bytes .Ascending [0x61])
      (serialize_bytes .Ascending [0x61, 0x62]) = .gt := by
  constructor
  · decide
  · decide

/-- Claim **C4 (amended).** For every byte string `x` and order `O`, decoding the
escaped encoding of `x` returns `x` (for any trailing bytes; the reader
position afterwards is whatever the buggy advance leaves).  The byte-wise
order of two escaped encodings under `O` equals the order of the contents
under `O` whenever the two strings differ at some position present in both;
when one is a strict prefix of the other the encoded order can disagree with
the prefix-sorts-first convention. -/
theorem escaped_bytes_roundtrip_order (x y rest : List Nat) (o : Order)
    (hx : ∀ b ∈ x, b < 256) (hy : ∀ b ∈ y, b < 256) :
    (∃ rem, deserialize_bytes_to_writer o (serialize_bytes o x ++ rest) =
      .ok (x, rem)) ∧
    ((∃ i, i < x.length ∧ i < y.length ∧ x.getD i 0 ≠ y.getD i 0) →
      lexCmp (serialize_bytes o x) (serialize_bytes o y) =
        ordApply o (lexCmp x y)) := by
  cases o
  · exact ⟨⟨_, read_asc_output x rest⟩,
      fun hd => lexCmp_serialize_bytes_asc x y hd⟩
  · exact ⟨⟨_, read_desc_output x rest hx⟩,
      fun hd => lexCmp_serialize_bytes_desc x y hx hy hd⟩
  · exact ⟨⟨_, read_asc_output x rest⟩,
      fun hd => lexCmp_serialize_bytes_asc x y hd⟩

/-- Witness for `escaped_bytes_roundtrip_order`: `[0, 0xF8]` round-trips and
orders below `[1]` under ascending order. -/
theorem escaped_bytes_roundtrip_order_witness :
    (∃ rem, deserialize_bytes_to_writer .Ascending
      (serialize_bytes .Ascending [0, 0xF8] ++ []) = .ok ([0, 0xF8], rem)) ∧
    lexCmp (serialize_bytes .Ascending [0, 0xF8])
      (serialize_bytes .Ascending [1]) = ordApply .Ascending (lexCmp [0, 0xF8] [1]) := by
  have h := escaped_bytes_roundtrip_order [0, 0xF8] [1] [] .Ascending
    (by intro b hb; simp at hb; rcases hb with rfl | rfl <;> norm_num)
    (by intro b hb; simp at hb; subst hb; norm_num)
  exact ⟨h.1, h.2 ⟨0, by norm_num, by norm_num, by norm_num⟩⟩

/-! ### `buf.rs`: the double-ended writer `DeBytesWriter` -/

/-- Rust `DeBytesWriter`: a byte slice with a head cursor and a tail cursor. -/
structure DeBytesWriter where
  buf : List Nat
  head : Nat
  tail : Nat
deriving DecidableEq, Repr

/-- Rust `DeBytesWriter::new`: head at 0, tail at the end. -/
def DeBytesWriter.new (buf : List Nat) : DeBytesWriter :=
  { buf := buf, head := 0, tail := buf.length }

/-- Rust `WriteBytes::write` for `DeBytesWriter`: `BufferOverflow` when
`head + n > tail`, else copy into `[head .. head+n)` and advance `head`. -/
def DeBytesWriter.write (w : DeBytesWriter) (value : List Nat) :
    Except Err DeBytesWriter :=
  if w.head + value.length > w.tail then .error .BufferOverflow
  else .ok
    { buf := w.buf.take w.head ++ value ++ w.buf.drop (w.head + value.length),
      head := w.head + value.length, tail := w.tail }

/-- Rust `TailWriteBytes::write_tail`: `BufferOverflow` when `head + n > tail`,
else copy into `[tail-n .. tail)` and retract `tail` to `tail - n`. -/
def DeBytesWriter.write_tail (w : DeBytesWriter) (value : List Nat) :
    Except Err DeBytesWriter :=
  if w.head + value.length > w.tail then .error .BufferOverflow
  else .ok
    { buf := w.buf.take (w.tail - value.length) ++ value ++ w.buf.drop w.tail,
      head := w.head, tail := w.tail - value.length }

/-- Rust `DeBytesWriter::finalize`: when the cursors already meet, return the full
buffer length; otherwise `copy_within(tail.., head)` (slide `[tail..len)` to
start at `head`, the bytes from `head + (len - tail)` on keeping their old
values), return `len - (tail - head)`, and set `head = tail`. -/
def DeBytesWriter.finalize (w : DeBytesWriter) : Nat × DeBytesWriter :=
  if w.head = w.tail then (w.buf.length, w)
  else
    (w.buf.length - (w.tail - w.head),
     { buf := w.buf.take w.head ++ w.buf.drop w.tail ++
         w.buf.drop (w.head + (w.buf.length - w.tail)),
       head := w.tail, tail := w.tail })

/-! ### Claims C7 and C8 -/

/-- Claim **C7.** For a writer with `head ≤ tail ≤ len`, `finalize()` moves the
bytes of `[tail..len)` leftward to start at offset `head` (the first
`head + (len - tail)` bytes of the result are the old head region followed by
the old tail region), returns exactly that length, and leaves the head and
tail cursors equal. -/
theorem finalize_spec (w : DeBytesWriter) (h1 : w.head ≤ w.tail)
    (h2 : w.tail ≤ w.buf.length) :
    (w.finalize).1 = w.head + (w.buf.length - w.tail) ∧
    (w.finalize).2.buf.take (w.head + (w.buf.length - w.tail)) =
      w.buf.take w.head ++ w.buf.drop w.tail ∧
    (w.finalize).2.head = (w.finalize).2.tail ∧
    (w.finalize).2.buf.length = w.buf.length := by
  unfold DeBytesWriter.finalize
  by_cases he : w.head = w.tail
  · rw [if_pos he]
    refine ⟨by omega, ?_, he, rfl⟩
    rw [show w.head + (w.buf.length - w.tail) = w.buf.length by omega,
      List.take_of_length_le le_rfl, he, List.take_append_drop]
  · rw [if_neg he]
    have hlen : (w.buf.take w.head ++ w.buf.drop w.tail).length =
        w.head + (w.buf.length - w.tail) := by
      simp only [List.length_append, List.length_take, List.length_drop]
      omega
    refine ⟨by omega, List.take_left' hlen, rfl, ?_⟩
    simp only [List.length_append, List.length_take, List.length_drop]
    omega

/-- Witness for `finalize_spec`: a five-byte buffer with `head = 2`,
`tail = 4` collapses to length 3. -/
theorem finalize_spec_witness :
    (DeBytesWriter.finalize ⟨[10, 11, 0, 0, 12], 2, 4⟩).1 = 2 + (5 - 4) ∧
    (DeBytesWriter.finalize ⟨[10, 11, 0, 0, 12], 2, 4⟩).2.buf.take (2 + (5 - 4)) =
      [10, 11] ++ [12] := by
  have h := finalize_spec ⟨[10, 11, 0, 0, 12], 2, 4⟩ (by norm_num) (by norm_num)
  exact ⟨h.1, h.2.1⟩

/-- Claim **C8.** Head and tail writes on a writer satisfying
`head ≤ tail ≤ len`: a crossing write fails with `BufferOverflow` and a
fitting head (resp. tail) write copies `value` into `[head..head+n)`
(resp. `[tail-n..tail)`), leaves the rest of the buffer unchanged, advances
`head` (resp. retracts `tail`) by `n`, and re-establishes
`head ≤ tail ≤ len` with the buffer length unchanged. -/
theorem write_invariant (w : DeBytesWriter) (value : List Nat)
    (h1 : w.head ≤ w.tail) (h2 : w.tail ≤ w.buf.length) :
    (w.head + value.length > w.tail →
      w.write value = .error .BufferOverflow ∧
      w.write_tail value = .error .BufferOverflow) ∧
    (w.head + value.length ≤ w.tail →
      ∃ w1 w2, w.write value = .ok w1 ∧ w.write_tail value = .ok w2 ∧
        w1.head = w.head + value.length ∧ w1.tail = w.tail ∧
        (w1.buf.drop w.head).take value.length = value ∧
        w1.buf.take w.head = w.buf.take w.head ∧
        w1.buf.drop (w.head + value.length) = w.buf.drop (w.head + value.length) ∧
        w2.head = w.head ∧ w2.tail = w.tail - value.length ∧
        (w2.buf.drop (w.tail - value.length)).take value.length = value ∧
        w2.buf.take (w.tail - value.length) = w.buf.take (w.tail - value.length) ∧
        w2.buf.drop w.tail = w.buf.drop w.tail ∧
        w1.head ≤ w1.tail ∧ w1.tail ≤ w1.buf.length ∧ w1.buf.length = w.buf.length ∧
        w2.head ≤ w2.tail ∧ w2.tail ≤ w2.buf.length ∧ w2.buf.length = w.buf.length) := by
  constructor
  · intro hov
    unfold DeBytesWriter.write DeBytesWriter.write_tail
    rw [if_pos hov, if_pos hov]
    exact ⟨rfl, rfl⟩
  · intro hfit
    have hnov : ¬ (w.head + value.length > w.tail) := by omega
    refine ⟨⟨w.buf.take w.head ++ value ++ w.buf.drop (w.head + value.length),
        w.head + value.length, w.tail⟩,
      ⟨w.buf.take (w.tail - value.length) ++ value ++ w.buf.drop w.tail,
        w.head, w.tail - value.length⟩,
      by unfold DeBytesWriter.write; rw [if_neg hnov],
      by unfold DeBytesWriter.write_tail; rw [if_neg hnov], rfl, rfl, ?_, ?_, ?_,
      rfl, rfl, ?_, ?_, ?_, ?_, ?_, ?_, ?_, ?_, ?_⟩
    · have htk : (w.buf.take w.head).length = w.head := by
        simp [List.length_take]; omega
      simp only [List.append_assoc]
      rw [List.drop_left' htk, List.take_left]
    · have htk : (w.buf.take w.head).length = w.head := by
        simp [List.length_take]; omega
      simp only [List.append_assoc]
      rw [List.take_left' htk]
    · have htk : (w.buf.take w.head ++ value).length = w.head + value.length := by
        simp [List.length_take]; omega
      dsimp only
      rw [List.drop_left' htk]
    · have htk : (w.buf.take (w.tail - value.length)).length =
          w.tail - value.length := by
        simp [List.length_take]; omega
      simp only [List.append_assoc]
      rw [List.drop_left' htk, List.take_left]
    · have htk : (w.buf.take (w.tail - value.length)).length =
          w.tail - value.length := by
        simp [List.length_take]; omega
      simp only [List.append_assoc]
      rw [List.take_left' htk]
    · have htk : (w.buf.take (w.tail - value.length) ++ value).length = w.tail := by
        simp [List.length_take]; omega
      dsimp only
      rw [List.drop_left' htk]
    · simpa using hfit
    · simp only [List.length_append, List.length_take, List.length_drop]
      omega
    · simp only [List.length_append, List.length_take, List.length_drop]
      omega
    · dsimp only
      omega
    · simp only [List.length_append, List.length_take, List.length_drop]
      omega
    · simp only [List.length_append, List.length_take, List.length_drop]
      omega

/-- Witness for `write_invariant`: a 2-byte write that would cross the
cursors of the writer `⟨[7,8,0,0], head 2, tail 3⟩` overflows on both
ends. -/
theorem write_invariant_witness :
    DeBytesWriter.write ⟨[7, 8, 0, 0], 2, 3⟩ [5, 6] = .error .BufferOverflow ∧
    DeBytesWriter.write_tail ⟨[7, 8, 0, 0], 2, 3⟩ [5, 6] = .error .BufferOverflow :=
  (write_invariant ⟨[7, 8, 0, 0], 2, 3⟩ [5, 6] (by decide) (by decide)).1 (by decide)

/-! ### `varint.rs`: the `u32` encoder (used for enum discriminants) -/

/-- Rust `u32::leading_zeros` for `v < 2^32`. -/
def leadingZeros32 (v : Nat) : Nat := 32 - (if v = 0 then 0 else Nat.log2 v + 1)

/-- The `LENGTHS` table of `<u32 as VarUInt>::varu_encoded_len`. -/
def varu32Lengths : List Nat :=
  [5,5,5,5,4,4,4,4,4,4,4,3,3,3,3,3,3,3,2,2,2,2,2,2,2,1,1,1,1,1,1,1,1]

/-- Rust `<u32 as VarUInt>::varu_encoded_len`. -/
def varu32_encoded_len (v : Nat) : Nat := varu32Lengths.getD (leadingZeros32 v) 0

/-- Rust `<u32 as VarUInt>::varu_to_slice` bytes: the 5-byte case emits `0xF0`
then the 4 little-endian value bytes; otherwise the first `L` little-endian
bytes of `(v << 1 | 1) << (L-1)` in `u32` arithmetic. -/
def varu32_encode (v : Nat) : List Nat :=
  let length := varu32_encoded_len v
  if length = 5 then 0xF0 :: toLEBytes 4 v
  else (toLEBytes 4 ((v * 2 + 1) * 2 ^ (length - 1) % 2 ^ 32)).take length

theorem varu32Lengths_getD_range :
    ∀ i < 33, 1 ≤ varu32Lengths.getD i 0 ∧ varu32Lengths.getD i 0 ≤ 5 := by
  decide

theorem varu32_encoded_len_range (v : Nat) :
    1 ≤ varu32_encoded_len v ∧ varu32_encoded_len v ≤ 5 := by
  unfold varu32_encoded_len
  exact varu32Lengths_getD_range (leadingZeros32 v) (by unfold leadingZeros32; omega)

theorem varu32_encode_length (v : Nat) :
    (varu32_encode v).length = varu32_encoded_len v := by
  obtain ⟨h1, h5⟩ := varu32_encoded_len_range v
  unfold varu32_encode
  by_cases h : varu32_encoded_len v = 5
  · rw [if_pos h, h]
    simp [length_toLEBytes]
  · rw [if_neg h]
    simp only [List.length_take, length_toLEBytes]
    omega

theorem varu64Lengths_getD_range :
    ∀ i < 65, 1 ≤ varu64Lengths.getD i 0 ∧ varu64Lengths.getD i 0 ≤ 9 := by
  decide

theorem varu64_encoded_len_range' (v : Nat) :
    1 ≤ varu64_encoded_len v ∧ varu64_encoded_len v ≤ 9 := by
  unfold varu64_encoded_len
  exact varu64Lengths_getD_range (leadingZeros64 v) (by unfold leadingZeros64; omega)

theorem varu64_encode_length' (v : Nat) :
    (varu64_encode v).length = varu64_encoded_len v := by
  obtain ⟨h1, h9⟩ := varu64_encoded_len_range' v
  unfold varu64_encode
  by_cases h : varu64_encoded_len v = 9
  · rw [if_pos h, h]
    simp [length_toLEBytes]
  · rw [if_neg h]
    simp only [List.length_take, length_toLEBytes]
    omega

/-! ### `ord_ser.rs` / `hint_ser.rs`: structured serializer and size calculator

The value model mirrors the `serde` data model the serializer dispatches on.
Parameter presets are modelled by the order used by the primitive layer (the
`primitives.rs` codecs in this tree are keyed on `Order` only and always
write big-endian — endianness does not affect byte counts) and by whether
sequence lengths go to the tail (`VarIntTailLenEncoder`, preset
`AscendingOrder`) or to the head (`VarIntLenEncoder`, presets
`PortableBinary`/`NativeBinary`).  Enum discriminants always go through the
`u32` varint path of `VarIntDiscrEncoder` (which calls `varu_to_writer` on
the plain head writer).  `usize` lengths are cast `as u64` (`% 2^64`, the
64-bit target of the `cfg(target_pointer_width = "64")` impls) and
discriminants are `u32` (`% 2^32`). -/

mutual
/-- A value shape of the `serde` data model. -/
inductive SValue where
  | vbool (b : Bool)
  | vu (w : Nat) (v : Nat)
  | vi (w : Nat) (v : Int)
  | vf (w : Nat) (p : Nat)
  | vchar (c : Nat)
  | vstr (bytes : List Nat)
  | vbytes (bytes : List Nat)
  | vnone
  | vsome (v : SValue)
  | vunit
  | vunitstruct
  | vunitvariant (idx : Nat)
  | vnewtypestruct (v : SValue)
  | vnewtypevariant (idx : Nat) (v : SValue)
  | vtuple (fields : SFields)
  | vtuplevariant (idx : Nat) (fields : SFields)
  | vseq (elems : SFields)
  | vmap (entries : SPairs)

/-- Fields of a tuple/struct, or elements of a sequence. -/
inductive SFields where
  | nil
  | cons (v : SValue) (rest : SFields)

/-- Entries of a map. -/
inductive SPairs where
  | nil
  | cons (k v : SValue) (rest : SPairs)
end

/-- Number of elements of an `SFields`. -/
def SFields.count : SFields → Nat
  | .nil => 0
  | .cons _ rest => 1 + rest.count

/-- Number of entries of an `SPairs`. -/
def SPairs.count : SPairs → Nat
  | .nil => 0
  | .cons _ _ rest => 1 + rest.count

/-- Double-ended writer state, abstracted to its contents: bytes written at
the head (in order) and the final contents of the tail region (tail writes
prepend, since the tail cursor retreats). -/
structure WSt where
  head : List Nat
  tail : List Nat
deriving DecidableEq, Repr

/-- Rust `WriteBytes::write`: append at the head. -/
def writeHead (st : WSt) (v : List Nat) : WSt := ⟨st.head ++ v, st.tail⟩

/-- Rust `TailWriteBytes::write_tail`: prepend to the tail region. -/
def writeTail (st : WSt) (v : List Nat) : WSt := ⟨st.head, v ++ st.tail⟩

/-- A `SerializerParams` preset, as far as byte layout is concerned. -/
structure SerParams where
  order : Order
  lenToTail : Bool
deriving DecidableEq, Repr

/-- Rust `params::AscendingOrder`: ascending primitives, lengths at the tail. -/
def ascendingOrderP : SerParams := ⟨.Ascending, true⟩

/-- Rust `params::PortableBinary`: ascending primitives, lengths at the head. -/
def portableBinaryP : SerParams := ⟨.Ascending, false⟩

/-- Rust `params::NativeBinary`: `Order::Unordered` primitives (ascending branch),
lengths at the head. -/
def nativeBinaryP : SerParams := ⟨.Unspecified, false⟩

/-- Rust `write_len`: the `u64` varint of the length through the preset's
`SeqLenEncoder`.  `varu_to_writer` issues two writes (`bytes[0]`, then
`bytes[1..length]`); through `WriteToTail` each one goes to the tail. -/
def writeLen (P : SerParams) (st : WSt) (n : Nat) : WSt :=
  let bytes := varu64_encode (n % 2 ^ 64)
  if P.lenToTail then writeTail (writeTail st (bytes.take 1)) (bytes.drop 1)
  else writeHead (writeHead st (bytes.take 1)) (bytes.drop 1)

/-- Rust `write_discr`: the `u32` varint of the variant index via
`VarIntDiscrEncoder`, which writes through the head writer. -/
def writeDiscr (st : WSt) (i : Nat) : WSt :=
  let bytes := varu32_encode (i % 2 ^ 32)
  writeHead (writeHead st (bytes.take 1)) (bytes.drop 1)

mutual
/-- The `ser::Serializer` impl of `ord_ser.rs`, as a state transformer on the
double-ended writer. -/
def serValue (P : SerParams) : SValue → WSt → WSt
  | .vbool b, st => writeHead st (serialize_bool b P.order)
  | .vu w v, st => writeHead st (serialize_uint w v P.order)
  | .vi w v, st => writeHead st (serialize_int w v P.order)
  | .vf w p, st => writeHead st (serialize_float w p P.order)
  | .vchar c, st => writeHead st (serialize_char c P.order)
  | .vstr s, st => writeHead (writeLen P st s.length) s
  | .vbytes s, st => writeHead (writeLen P st s.length) s
  | .vnone, st => writeHead st (serialize_uint 1 0 P.order)
  | .vsome v, st => serValue P v (writeHead st (serialize_uint 1 1 P.order))
  | .vunit, st => st
  | .vunitstruct, st => st
  | .vunitvariant i, st => writeDiscr st i
  | .vnewtypestruct v, st => serValue P v st
  | .vnewtypevariant i v, st => serValue P v (writeDiscr st i)
  | .vtuple fs, st => serFields P fs st
  | .vtuplevariant i fs, st => serFields P fs (writeDiscr st i)
  | .vseq es, st => serFields P es (writeLen P st es.count)
  | .vmap ps, st => serPairs P ps (writeLen P st ps.count)

/-- Serialization of compound fields/elements, in order. -/
def serFields (P : SerParams) : SFields → WSt → WSt
  | .nil, st => st
  | .cons v rest, st => serFields P rest (serValue P v st)

/-- Serialization of map entries: key then value, repeated. -/
def serPairs (P : SerParams) : SPairs → WSt → WSt
  | .nil, st => st
  | .cons k v rest, st => serPairs P rest (serValue P v (serValue P k st))
end

mutual
/-- The `SizeCalc` serializer of `hint_ser.rs`: `add_ty` contributes
`size_of::<T>()`, `add_seq_len` the `u64` varint length, and
`add_discriminant_size` the `u32` varint length of the index. -/
def sizeCalc : SValue → Nat
  | .vbool _ => 1
  | .vu w _ => w
  | .vi w _ => w
  | .vf w _ => w
  | .vchar _ => 4
  | .vstr s => varu64_encoded_len (s.length % 2 ^ 64) + s.length
  | .vbytes s => varu64_encoded_len (s.length % 2 ^ 64) + s.length
  | .vnone => 1
  | .vsome v => 1 + sizeCalc v
  | .vunit => 0
  | .vunitstruct => 0
  | .vunitvariant i => varu32_encoded_len (i % 2 ^ 32)
  | .vnewtypestruct v => sizeCalc v
  | .vnewtypevariant i v => varu32_encoded_len (i % 2 ^ 32) + sizeCalc v
  | .vtuple fs => sizeFields fs
  | .vtuplevariant i fs => varu32_encoded_len (i % 2 ^ 32) + sizeFields fs
  | .vseq es => varu64_encoded_len (es.count % 2 ^ 64) + sizeFields es
  | .vmap ps => varu64_encoded_len (ps.count % 2 ^ 64) + sizePairs ps

def sizeFields : SFields → Nat
  | .nil => 0
  | .cons v rest => sizeCalc v + sizeFields rest

def sizePairs : SPairs → Nat
  | .nil => 0
  | .cons k v rest => sizeCalc k + sizeCalc v + sizePairs rest
end

/-- Total number of bytes a writer state holds. -/
def WSt.total (st : WSt) : Nat := st.head.length + st.tail.length

theorem writeHead_total (st : WSt) (v : List Nat) :
    (writeHead st v).total = st.total + v.length := by
  simp [writeHead, WSt.total]
  omega

theorem writeTail_total (st : WSt) (v : List Nat) :
    (writeTail st v).total = st.total + v.length := by
  simp [writeTail, WSt.total]
  omega

theorem writeLen_total (P : SerParams) (st : WSt) (n : Nat) :
    (writeLen P st n).total = st.total + varu64_encoded_len (n % 2 ^ 64) := by
  unfold writeLen
  have henc := varu64_encode_length' (n % 2 ^ 64)
  have hr := varu64_encoded_len_range' (n % 2 ^ 64)
  by_cases h : P.lenToTail = true
  · rw [if_pos h]
    simp only [writeTail_total, List.length_take, List.length_drop, henc]
    omega
  · rw [if_neg h]
    simp only [writeHead_total, List.length_take, List.length_drop, henc]
    omega

theorem writeDiscr_total (st : WSt) (i : Nat) :
    (writeDiscr st i).total = st.total + varu32_encoded_len (i % 2 ^ 32) := by
  unfold writeDiscr
  have henc := varu32_encode_length (i % 2 ^ 32)
  have hr := varu32_encoded_len_range (i % 2 ^ 32)
  simp only [writeHead_total, List.length_take, List.length_drop, henc]
  omega

mutual
theorem serValue_total (P : SerParams) (v : SValue) :
    ∀ st : WSt, (serValue P v st).total = st.total + sizeCalc v := by
  cases v <;> intro st
  case vbool b =>
    simp [serValue, sizeCalc, writeHead_total, serialize_bool,
      serialize_uint_length]
  case vu w v =>
    simp [serValue, sizeCalc, writeHead_total, serialize_uint_length]
  case vi w v =>
    simp [serValue, sizeCalc, writeHead_total, serialize_int_length]
  case vf w p =>
    simp [serValue, sizeCalc, writeHead_total, serialize_float_length]
  case vchar c =>
    simp [serValue, sizeCalc, writeHead_total, serialize_char,
      serialize_uint_length]
  case vstr s =>
    simp [serValue, sizeCalc, writeHead_total, writeLen_total]
    omega
  case vbytes s =>
    simp [serValue, sizeCalc, writeHead_total, writeLen_total]
    omega
  case vnone =>
    simp [serValue, sizeCalc, writeHead_total, serialize_uint_length]
  case vsome v =>
    simp [serValue, sizeCalc, serValue_total P v, writeHead_total,
      serialize_uint_length]
    omega
  case vunit => simp [serValue, sizeCalc]
  case vunitstruct => simp [serValue, sizeCalc]
  case vunitvariant i =>
    simp [serValue, sizeCalc, writeDiscr_total]
  case vnewtypestruct v =>
    simp [serValue, sizeCalc, serValue_total P v]
  case vnewtypevariant i v =>
    simp [serValue, sizeCalc, serValue_total P v, writeDiscr_total]
    omega
  case vtuple fs =>
    simp [serValue, sizeCalc, serFields_total P fs]
  case vtuplevariant i fs =>
    simp [serValue, sizeCalc, serFields_total P fs, writeDiscr_total]
    omega
  case vseq es =>
    simp [serValue, sizeCalc, serFields_total P es, writeLen_total]
    omega
  case vmap ps =>
    simp [serValue, sizeCalc, serPairs_total P ps, writeLen_total]
    omega

theorem serFields_total (P : SerParams) (fs : SFields) :
    ∀ st : WSt, (serFields P fs st).total = st.total + sizeFields fs := by
  cases fs <;> intro st
  case nil => simp [serFields, sizeFields]
  case cons v rest =>
    simp [serFields, sizeFields, serFields_total P rest, serValue_total P v]
    omega

theorem serPairs_total (P : SerParams) (ps : SPairs) :
    ∀ st : WSt, (serPairs P ps st).total = st.total + sizePairs ps := by
  cases ps <;> intro st
  case nil => simp [serPairs, sizePairs]
  case cons k v rest =>
    simp [serPairs, sizePairs, serPairs_total P rest, serValue_total P v,
      serValue_total P k]
    omega
end

/-- Claim **C9.** For every serializable value and every parameter preset, the size
calculator of `hint_ser.rs` returns exactly the total number of bytes (head
plus tail) that the structured serializer of `ord_ser.rs` writes for that
value under the same preset. -/
theorem size_calc_exact (P : SerParams) (v : SValue) :
    sizeCalc v = (serValue P v ⟨[], []⟩).total := by
  rw [serValue_total P v ⟨[], []⟩]
  simp [WSt.total]

end Ordcode
